import Mathlib

/-!
# Phase-quality map of a wrapped-phase image

A shallow embedding of `src/phase_unwrapping/c/main_parallel.c`
(`sub2ind`, `wrapped_diff`, `extract_subregion`, `standard_deviation`,
`calculate_phase_quality`, the benchmark loop of `main`) and the properties
proved about it.

Modelling conventions.

* A C buffer (`float *`) is a `List α` of its cells.  A read or a write outside
  the buffer is undefined behaviour in C and is the failure `none` here, so a
  result `some _` says that every access of the run was in bounds.
* Every function receives the buffers it is handed by pointer and returns them
  all, so that "this buffer is left alone" is a statement about the result.
  Distinct pointer arguments are distinct allocations, as in every call made by
  `calculate_phase_quality` and `main`.
* The `int` arguments (dimensions, radius, indices) are natural numbers.  The
  only subtractions of the source are loop bounds and window origins; a C loop
  whose upper bound lies below its start runs zero times, which is what the
  truncated subtraction gives, and the origins `r - KERNEL_RADIUS` are taken
  with `KERNEL_RADIUS ≤ r`.  Integer arithmetic is exact: the dimensions are
  taken in the range where `NUM_ROWS * NUM_COLS`, which the source itself
  stores in an `int`, does not overflow.
* The arithmetic of the `float` cells is a parameter `FloatOps α`; the
  definitions are generic and computable.  `realOps` instantiates it with the
  real numbers, the idealisation under which the numerical claims are read.
* `malloc` returns a buffer whose contents are indeterminate: they are read off
  an arbitrary function `uninit`.  `calloc` returns a zero-filled buffer.
* Execution is sequential: the OpenMP directives around the loop of `main` are
  not modelled.
-/

namespace PhaseQuality

/-- The arithmetic the program performs on `float` cells. -/
structure FloatOps (α : Type) where
  /-- The value `0`: a `calloc`ed cell and the literal `0`. -/
  zero : α
  /-- Conversion of an `int` operand to floating point (`mean / LENGTH`). -/
  ofNat : Nat → α
  add : α → α → α
  sub : α → α → α
  mul : α → α → α
  div : α → α → α
  sqrt : α → α
  sin : α → α
  cos : α → α
  /-- The two-argument arctangent `atan2 y x`. -/
  atan2 : α → α → α

/-- A write `buf[i] = v`; outside the buffer it is undefined behaviour. -/
def writeAt {α : Type} (buf : List α) (i : Nat) (v : α) : Option (List α) :=
  if i < buf.length then some (buf.set i v) else none

/-- The buffer `calloc(n, sizeof(float))`: `n` cells holding zero. -/
def calloc {α : Type} (ops : FloatOps α) (n : Nat) : List α :=
  List.replicate n ops.zero

/-- The buffer `malloc(n * sizeof(float))`: `n` cells of indeterminate
contents, given by `junk`. -/
def malloc {α : Type} (junk : Nat → α) (n : Nat) : List α :=
  (List.range n).map junk

/-- Runs `body k`, `body (k+1)`, ... for `n` iterations. -/
def loopFrom {σ : Type} (body : Nat → σ → Option σ) : Nat → Nat → σ → Option σ
  | _, 0, s => some s
  | k, n + 1, s => (body k s).bind (loopFrom body (k + 1) n)

/-- The C loop `for (k = lo; k < hi; k++) body`. -/
def forLoop {σ : Type} (lo hi : Nat) (body : Nat → σ → Option σ) (s : σ) : Option σ :=
  loopFrom body lo (hi - lo) s

/-- The linear index of `(row, col)`: `*ind = row * num_cols + col`. -/
def sub2ind (row col num_cols : Nat) : Nat :=
  row * num_cols + col

/-- Embedding of `wrapped_diff(OUTPUT, INPUT, NUM_ROWS, NUM_COLS, DIM)`.
The state is the pair `(OUTPUT, INPUT)`. -/
def wrapped_diff {α : Type} (ops : FloatOps α) (OUTPUT INPUT : List α)
    (NUM_ROWS NUM_COLS DIM : Nat) : Option (List α × List α) :=
  match DIM with
  | 1 =>
    forLoop 0 NUM_COLS (fun c m =>
      forLoop 0 (NUM_ROWS - 1) (fun r m => do
        let ind := sub2ind r c NUM_COLS
        let ind_plusone := sub2ind (r + 1) c NUM_COLS
        let x1 ← m.2[ind_plusone]?
        let x0 ← m.2[ind]?
        let diff := ops.sub x1 x0
        let out ← writeAt m.1 ind (ops.atan2 (ops.sin diff) (ops.cos diff))
        pure (out, m.2)) m) (OUTPUT, INPUT)
  | 2 =>
    forLoop 0 NUM_ROWS (fun r m =>
      forLoop 0 (NUM_COLS - 1) (fun c m => do
        let ind := sub2ind r c NUM_COLS
        let ind_plusone := sub2ind r (c + 1) NUM_COLS
        let x1 ← m.2[ind_plusone]?
        let x0 ← m.2[ind]?
        let diff := ops.sub x1 x0
        let out ← writeAt m.1 ind (ops.atan2 (ops.sin diff) (ops.cos diff))
        pure (out, m.2)) m) (OUTPUT, INPUT)
  | _ => some (OUTPUT, INPUT)

/-- The state of `standard_deviation`: the cell `*RESULT`, the buffer `INPUT`
and the two local accumulators. -/
structure SdState (α : Type) where
  RESULT : α
  INPUT : List α
  mean : α
  sum_deviation : α

/-- Embedding of `standard_deviation(RESULT, INPUT, LENGTH)`; returns the new
`*RESULT` and the buffer `INPUT`. -/
def standard_deviation {α : Type} (ops : FloatOps α) (RESULT : α) (INPUT : List α)
    (LENGTH : Nat) : Option (α × List α) := do
  let s : SdState α :=
    { RESULT := RESULT, INPUT := INPUT, mean := ops.zero, sum_deviation := ops.zero }
  let s ← forLoop 0 LENGTH (fun k s => do
    let x ← s.INPUT[k]?
    pure { s with mean := ops.add s.mean x }) s
  let s := { s with mean := ops.div s.mean (ops.ofNat LENGTH) }
  let s ← forLoop 0 LENGTH (fun k s => do
    let x ← s.INPUT[k]?
    pure { s with
      sum_deviation := ops.add s.sum_deviation (ops.mul (ops.sub x s.mean) (ops.sub x s.mean)) }) s
  let s := { s with RESULT := ops.sqrt (ops.div s.sum_deviation (ops.ofNat LENGTH)) }
  pure (s.RESULT, s.INPUT)

/-- Embedding of `extract_subregion`.  The state is the pair
`(DEST_ARRAY, SOURCE_ARRAY)`.  `SOURCE_NUM_ROWS` is unused, as in the source. -/
def extract_subregion {α : Type} (DEST_ARRAY SOURCE_ARRAY : List α)
    (SOURCE_ORIGIN_ROW SOURCE_ORIGIN_COL SOURCE_NUM_ROWS SOURCE_NUM_COLS
      DEST_NUM_ROWS DEST_NUM_COLS : Nat) : Option (List α × List α) :=
  let _ := SOURCE_NUM_ROWS
  forLoop 0 DEST_NUM_ROWS (fun r m =>
    forLoop 0 DEST_NUM_COLS (fun c m => do
      let dest_ind := sub2ind r c DEST_NUM_COLS
      let source_ind := sub2ind (r + SOURCE_ORIGIN_ROW) (c + SOURCE_ORIGIN_COL) SOURCE_NUM_COLS
      let v ← m.2[source_ind]?
      let dest ← writeAt m.1 dest_ind v
      pure (dest, m.2)) m) (DEST_ARRAY, SOURCE_ARRAY)

/-- The buffers and cells `calculate_phase_quality` works on. -/
structure QualityMem (α : Type) where
  PHASE_QUALITY_ARRAY : List α
  WRAPPED_PHASE_ANGLE : List α
  phase_diff_rows : List α
  phase_diff_cols : List α
  row_diffs_region : List α
  col_diffs_region : List α
  row_std_dev : α
  col_std_dev : α

/-- One pass of the body of the pixel loop of `calculate_phase_quality`, at
the pixel `(r, c)`. -/
def quality_pixel {α : Type} (ops : FloatOps α) (NUM_ROWS NUM_COLS KERNEL_RADIUS : Nat)
    (r c : Nat) (m : QualityMem α) : Option (QualityMem α) := do
  let kernel_dim := 2 * KERNEL_RADIUS + 1
  let ind := sub2ind r c NUM_COLS
  let source_origin_row := r - KERNEL_RADIUS
  let source_origin_col := c - KERNEL_RADIUS
  let (row_diffs_region, phase_diff_rows) ←
    extract_subregion m.row_diffs_region m.phase_diff_rows
      source_origin_row source_origin_col NUM_ROWS NUM_COLS kernel_dim kernel_dim
  let (col_diffs_region, phase_diff_cols) ←
    extract_subregion m.col_diffs_region m.phase_diff_cols
      source_origin_row source_origin_col NUM_ROWS NUM_COLS kernel_dim kernel_dim
  let (row_std_dev, row_diffs_region) ←
    standard_deviation ops m.row_std_dev row_diffs_region (kernel_dim * kernel_dim)
  let (col_std_dev, col_diffs_region) ←
    standard_deviation ops m.col_std_dev col_diffs_region (kernel_dim * kernel_dim)
  let quality ← writeAt m.PHASE_QUALITY_ARRAY ind (ops.add row_std_dev col_std_dev)
  pure
    { PHASE_QUALITY_ARRAY := quality
      WRAPPED_PHASE_ANGLE := m.WRAPPED_PHASE_ANGLE
      phase_diff_rows := phase_diff_rows
      phase_diff_cols := phase_diff_cols
      row_diffs_region := row_diffs_region
      col_diffs_region := col_diffs_region
      row_std_dev := row_std_dev
      col_std_dev := col_std_dev }

/-- Embedding of `calculate_phase_quality(PHASE_QUALITY_ARRAY,
WRAPPED_PHASE_ANGLE, NUM_ROWS, NUM_COLS, KERNEL_RADIUS)`; returns the quality
array and the image.  `uninit a i` is the indeterminate content of cell `i` of
the `a`-th `malloc`ed block. -/
def calculate_phase_quality {α : Type} (ops : FloatOps α) (uninit : Nat → Nat → α)
    (PHASE_QUALITY_ARRAY WRAPPED_PHASE_ANGLE : List α)
    (NUM_ROWS NUM_COLS KERNEL_RADIUS : Nat) : Option (List α × List α) := do
  let num_elements := NUM_ROWS * NUM_COLS
  let kernel_dim := 2 * KERNEL_RADIUS + 1
  let phase_diff_rows := calloc ops num_elements
  let phase_diff_cols := calloc ops num_elements
  let row_diffs_region := malloc (uninit 0) (kernel_dim * kernel_dim)
  let col_diffs_region := malloc (uninit 1) (kernel_dim * kernel_dim)
  let row_std_dev := uninit 2 0
  let col_std_dev := uninit 3 0
  let col_min := KERNEL_RADIUS
  let col_max := NUM_COLS - KERNEL_RADIUS
  let row_min := KERNEL_RADIUS
  let row_max := NUM_ROWS - KERNEL_RADIUS
  let (phase_diff_rows, WRAPPED_PHASE_ANGLE) ←
    wrapped_diff ops phase_diff_rows WRAPPED_PHASE_ANGLE NUM_ROWS NUM_COLS 1
  let (phase_diff_cols, WRAPPED_PHASE_ANGLE) ←
    wrapped_diff ops phase_diff_cols WRAPPED_PHASE_ANGLE NUM_ROWS NUM_COLS 2
  let m : QualityMem α :=
    { PHASE_QUALITY_ARRAY := PHASE_QUALITY_ARRAY
      WRAPPED_PHASE_ANGLE := WRAPPED_PHASE_ANGLE
      phase_diff_rows := phase_diff_rows
      phase_diff_cols := phase_diff_cols
      row_diffs_region := row_diffs_region
      col_diffs_region := col_diffs_region
      row_std_dev := row_std_dev
      col_std_dev := col_std_dev }
  let m ← forLoop row_min row_max (fun r m =>
    forLoop col_min col_max (fun c m =>
      quality_pixel ops NUM_ROWS NUM_COLS KERNEL_RADIUS r c m) m) m
  pure (m.PHASE_QUALITY_ARRAY, m.WRAPPED_PHASE_ANGLE)

/-- The floating-point operations read over the real numbers.  `atan2 y x` is
the argument of `x + y i` in `(-π, π]`, with `atan2 0 0 = 0`. -/
noncomputable def realOps : FloatOps ℝ where
  zero := 0
  ofNat := fun n => (n : ℝ)
  add := fun x y => x + y
  sub := fun x y => x - y
  mul := fun x y => x * y
  div := fun x y => x / y
  sqrt := Real.sqrt
  sin := Real.sin
  cos := Real.cos
  atan2 := fun y x => Complex.arg ⟨x, y⟩

/-- The benchmark loop of `main`:
`for (k = 0; k < nloops; k++) calculate_phase_quality(quality_array,
input_array, num_rows, num_cols, kernel_radius)`, run sequentially.  The state
is the pair `(quality_array, input_array)`; `uninit k` gives the indeterminate
contents of the blocks `malloc`ed by the `k`-th call. -/
def main_loop {α : Type} (ops : FloatOps α) (uninit : Nat → Nat → Nat → α)
    (quality_array input_array : List α) (num_rows num_cols kernel_radius nloops : Nat) :
    Option (List α × List α) :=
  forLoop 0 nloops (fun k m =>
    calculate_phase_quality ops (uninit k) m.1 m.2 num_rows num_cols kernel_radius)
    (quality_array, input_array)

/-- The `6 × 6` image whose columns `0..2` hold the phase `3` and whose
columns `3..5` hold the phase `-3`. -/
noncomputable def jump_image : List ℝ :=
  (List.range 36).map (fun i => if i % 6 < 3 then 3 else -3)

/-- A memory of the pixel loop of `calculate_phase_quality` for a `3 × 3`
image with radius `1`: the fields and scratch buffers have `9` cells, the
row-direction field is `rows`, everything else is zero. -/
noncomputable def pixel_mem (rows : List ℝ) : QualityMem ℝ where
  PHASE_QUALITY_ARRAY := List.replicate 9 0
  WRAPPED_PHASE_ANGLE := List.replicate 9 0
  phase_diff_rows := rows
  phase_diff_cols := List.replicate 9 0
  row_diffs_region := List.replicate 9 0
  col_diffs_region := List.replicate 9 0
  row_std_dev := 0
  col_std_dev := 0

/-- A memory of the pixel loop of `calculate_phase_quality` for a `4 × 4`
image with radius `1`: the fields have `16` cells and are `rows` and `cols`,
the scratch windows have `9` cells, everything else is zero. -/
noncomputable def pixel_mem_4 (rows cols : List ℝ) : QualityMem ℝ where
  PHASE_QUALITY_ARRAY := List.replicate 16 0
  WRAPPED_PHASE_ANGLE := List.replicate 16 0
  phase_diff_rows := rows
  phase_diff_cols := cols
  row_diffs_region := List.replicate 9 0
  col_diffs_region := List.replicate 9 0
  row_std_dev := 0
  col_std_dev := 0

/-! ## Values and predicates named in the statements -/

/-- The expression `atan2(sin(x), cos(x))` that `wrapped_diff` applies to each
difference. -/
def wrap {α : Type} (ops : FloatOps α) (x : α) : α :=
  ops.atan2 (ops.sin x) (ops.cos x)

/-- The wrapped difference of the cells `i + off` and `i` of `INPUT`: the value
`wrapped_diff` computes for the cell `i` (`off` is `NUM_COLS` for `DIM = 1`
and `1` for `DIM = 2`). -/
def diffAt {α : Type} (ops : FloatOps α) (INPUT : List α) (off i : Nat) : Option α :=
  (INPUT[i + off]?).bind (fun x1 => (INPUT[i]?).bind (fun x0 => some (wrap ops (ops.sub x1 x0))))

/-- The step `B` fills the cells `W` of the buffer `get s` with the values `f`,
keeps every other cell of that buffer and its length, and preserves `P`. -/
def Fills {σ α : Type} (P : σ → Prop) (get : σ → List α) (W : Nat → Prop)
    (f : Nat → Option α) (B : σ → Option σ) : Prop :=
  ∀ s, P s → ∃ s', B s = some s' ∧ P s' ∧ (get s').length = (get s).length ∧
    (∀ i, W i → (get s')[i]? = f i) ∧ (∀ i, ¬ W i → (get s')[i]? = (get s)[i]?)

/-- The mean `standard_deviation` computes over the samples `xs`: the running
sum from `0`, left to right, divided by the length. -/
def meanOf {α : Type} (ops : FloatOps α) (xs : List α) (LENGTH : Nat) : α :=
  ops.div (xs.foldl ops.add ops.zero) (ops.ofNat LENGTH)

/-- The value `standard_deviation` stores for the samples `xs`: the square
root of the running sum of squared deviations from `meanOf`, divided by the
length. -/
def stdOf {α : Type} (ops : FloatOps α) (xs : List α) (LENGTH : Nat) : α :=
  ops.sqrt (ops.div
    (xs.foldl (fun acc x =>
      ops.add acc (ops.mul (ops.sub x (meanOf ops xs LENGTH)) (ops.sub x (meanOf ops xs LENGTH))))
      ops.zero)
    (ops.ofNat LENGTH))

/-- The source cell `extract_subregion` copies into the destination cell `i`
of a window with `DEST_NUM_COLS` columns. -/
def sourceAt {α : Type} (SOURCE_ARRAY : List α)
    (SOURCE_ORIGIN_ROW SOURCE_ORIGIN_COL SOURCE_NUM_COLS DEST_NUM_COLS i : Nat) : Option α :=
  SOURCE_ARRAY[sub2ind (i / DEST_NUM_COLS + SOURCE_ORIGIN_ROW)
    (i % DEST_NUM_COLS + SOURCE_ORIGIN_COL) SOURCE_NUM_COLS]?

/-- The `k × k` window of `SOURCE_ARRAY` with top-left corner
`(SOURCE_ORIGIN_ROW, SOURCE_ORIGIN_COL)`, listed row by row. -/
def windowOf {α : Type} (SOURCE_ARRAY : List α)
    (SOURCE_ORIGIN_ROW SOURCE_ORIGIN_COL SOURCE_NUM_COLS k : Nat) : List α :=
  (List.range (k * k)).filterMap
    (sourceAt SOURCE_ARRAY SOURCE_ORIGIN_ROW SOURCE_ORIGIN_COL SOURCE_NUM_COLS k)

/-- The value the pixel loop of `calculate_phase_quality` stores in the cell
`i` of the quality array, from the two difference fields. -/
def qualityAt {α : Type} (ops : FloatOps α) (phase_diff_rows phase_diff_cols : List α)
    (NUM_COLS KERNEL_RADIUS i : Nat) : α :=
  let kernel_dim := 2 * KERNEL_RADIUS + 1
  ops.add
    (stdOf ops (windowOf phase_diff_rows (i / NUM_COLS - KERNEL_RADIUS)
      (i % NUM_COLS - KERNEL_RADIUS) NUM_COLS kernel_dim) (kernel_dim * kernel_dim))
    (stdOf ops (windowOf phase_diff_cols (i / NUM_COLS - KERNEL_RADIUS)
      (i % NUM_COLS - KERNEL_RADIUS) NUM_COLS kernel_dim) (kernel_dim * kernel_dim))

/-- The invariant of the pixel loop of `calculate_phase_quality`: the image and
the two difference fields are the given ones, the two scratch windows have
`(2 * KERNEL_RADIUS + 1)²` cells and the quality array has `n` cells. -/
def QualityInv {α : Type} (IMG dR dC : List α) (KERNEL_RADIUS n : Nat) (m : QualityMem α) :
    Prop :=
  m.WRAPPED_PHASE_ANGLE = IMG ∧ m.phase_diff_rows = dR ∧ m.phase_diff_cols = dC ∧
  m.row_diffs_region.length = (2 * KERNEL_RADIUS + 1) * (2 * KERNEL_RADIUS + 1) ∧
  m.col_diffs_region.length = (2 * KERNEL_RADIUS + 1) * (2 * KERNEL_RADIUS + 1) ∧
  m.PHASE_QUALITY_ARRAY.length = n

/-! ## Loops -/

theorem loopFrom_inv {σ : Type} (body : Nat → σ → Option σ) (Inv : Nat → σ → Prop) :
    ∀ (n k : Nat) (s : σ), Inv k s →
      (∀ j t, k ≤ j → j < k + n → Inv j t → ∃ t', body j t = some t' ∧ Inv (j + 1) t') →
      ∃ s', loopFrom body k n s = some s' ∧ Inv (k + n) s' := by
  intro n
  induction n with
  | zero => intro k s h _; exact ⟨s, rfl, h⟩
  | succ n ih =>
    intro k s h hstep
    obtain ⟨t, ht, hInv⟩ := hstep k s (Nat.le_refl k) (by omega) h
    obtain ⟨s', hs', hInv'⟩ := ih (k + 1) t hInv
      (fun j u hj hlt hu => hstep j u (by omega) (by omega) hu)
    refine ⟨s', ?_, ?_⟩
    · simp [loopFrom, ht, hs']
    · have e : k + (n + 1) = k + 1 + n := by omega
      rw [e]; exact hInv'

theorem forLoop_inv {σ : Type} (body : Nat → σ → Option σ) (Inv : Nat → σ → Prop)
    (lo hi : Nat) (s : σ) (hle : lo ≤ hi) (h0 : Inv lo s)
    (hstep : ∀ j t, lo ≤ j → j < hi → Inv j t → ∃ t', body j t = some t' ∧ Inv (j + 1) t') :
    ∃ s', forLoop lo hi body s = some s' ∧ Inv hi s' := by
  obtain ⟨s', hs', hInv⟩ := loopFrom_inv body Inv (hi - lo) lo s h0
    (fun j t hj hlt ht => hstep j t hj (by omega) ht)
  refine ⟨s', hs', ?_⟩
  have e : lo + (hi - lo) = hi := by omega
  rw [e] at hInv; exact hInv

theorem forLoop_empty {σ : Type} (body : Nat → σ → Option σ) (lo hi : Nat) (s : σ)
    (h : hi ≤ lo) : forLoop lo hi body s = some s := by
  have e : hi - lo = 0 := by omega
  simp [forLoop, e, loopFrom]

theorem fills_forLoop {σ α : Type} (P : σ → Prop) (get : σ → List α) (W : Nat → Nat → Prop)
    (f : Nat → Option α) (body : Nat → σ → Option σ) (lo hi : Nat)
    (h : ∀ k, lo ≤ k → k < hi → Fills P get (W k) f (body k)) :
    Fills P get (fun i => ∃ k, lo ≤ k ∧ k < hi ∧ W k i) f (forLoop lo hi body) := by
  intro s hP
  by_cases hle : lo ≤ hi
  · obtain ⟨s', hs', hP', hlen, hin, hout⟩ := forLoop_inv body
      (fun k t => P t ∧ (get t).length = (get s).length ∧
        (∀ i, (∃ j, lo ≤ j ∧ j < k ∧ W j i) → (get t)[i]? = f i) ∧
        (∀ i, ¬ (∃ j, lo ≤ j ∧ j < k ∧ W j i) → (get t)[i]? = (get s)[i]?))
      lo hi s hle
      ⟨hP, rfl, fun i ⟨j, h1, h2, _⟩ => absurd h2 (by omega), fun _ _ => rfl⟩
      (by
        intro j t hj hjhi ⟨hPt, hlen, hin, hout⟩
        obtain ⟨t', ht', hPt', hlen', hin', hout'⟩ := h j hj hjhi t hPt
        refine ⟨t', ht', hPt', hlen'.trans hlen, ?_, ?_⟩
        · intro i ⟨j', h1, h2, h3⟩
          by_cases hW : W j i
          · exact hin' i hW
          · rw [hout' i hW]
            by_cases hjj : j' = j
            · subst hjj; exact absurd h3 hW
            · exact hin i ⟨j', h1, by omega, h3⟩
        · intro i hno
          have hW : ¬ W j i := fun hW => hno ⟨j, hj, by omega, hW⟩
          rw [hout' i hW]
          exact hout i (fun ⟨j', h1, h2, h3⟩ => hno ⟨j', h1, by omega, h3⟩))
    exact ⟨s', hs', hP', hlen, hin, hout⟩
  · refine ⟨s, forLoop_empty body lo hi s (by omega), hP, rfl, ?_, fun _ _ => rfl⟩
    intro i ⟨k, h1, h2, _⟩
    omega

theorem fills_write {σ α : Type} (P : σ → Prop) (get : σ → List α) (f : Nat → Option α)
    (B : σ → Option σ) (idx : Nat)
    (h : ∀ s, P s → ∃ s' v, B s = some s' ∧ P s' ∧ idx < (get s).length ∧
      get s' = (get s).set idx v ∧ f idx = some v) :
    Fills P get (fun i => i = idx) f B := by
  intro s hP
  obtain ⟨s', v, hs', hP', hlt, hset, hf⟩ := h s hP
  refine ⟨s', hs', hP', by simp [hset], ?_, ?_⟩
  · intro i hi
    subst hi
    rw [hset, hf]
    simp [hlt]
  · intro i hi
    rw [hset]
    simp [List.getElem?_set, Ne.symm hi]

/-! ## Index arithmetic -/

theorem sub2ind_lt {r c R C : Nat} (hr : r < R) (hc : c < C) : r * C + c < R * C := by
  have h1 : (r + 1) * C ≤ R * C := Nat.mul_le_mul_right C hr
  have h2 : (r + 1) * C = r * C + C := by ring
  omega

theorem sub2ind_inj {r c r' c' C : Nat} (hc : c < C) (hc' : c' < C)
    (h : r * C + c = r' * C + c') : r = r' ∧ c = c' := by
  have hC : 0 < C := by omega
  have h1 : (r * C + c) / C = r := by
    rw [Nat.add_comm, Nat.add_mul_div_right _ _ hC, Nat.div_eq_of_lt hc]; simp
  have h2 : (r' * C + c') / C = r' := by
    rw [Nat.add_comm, Nat.add_mul_div_right _ _ hC, Nat.div_eq_of_lt hc']; simp
  have hr : r = r' := by rw [← h1, ← h2, h]
  subst hr
  exact ⟨rfl, by omega⟩

theorem exists_getElem? {α : Type} (l : List α) (i : Nat) (h : i < l.length) :
    ∃ x, l[i]? = some x :=
  ⟨l[i], List.getElem?_eq_getElem h⟩

/-! ## `wrapped_diff` -/

theorem wrapped_diff_rows_fills {α : Type} (ops : FloatOps α) (INPUT : List α) (R C n : Nat)
    (hin : R * C ≤ INPUT.length) (hn : R * C ≤ n) :
    Fills (fun m : List α × List α => m.2 = INPUT ∧ m.1.length = n) Prod.fst
      (fun i => ∃ c, 0 ≤ c ∧ c < C ∧ ∃ r, 0 ≤ r ∧ r < R - 1 ∧ i = r * C + c)
      (diffAt ops INPUT C)
      (fun m => wrapped_diff ops m.1 m.2 R C 1) := by
  refine fills_forLoop _ _ (fun c i => ∃ r, 0 ≤ r ∧ r < R - 1 ∧ i = r * C + c) _ _ 0 C
    (fun c _ hc => fills_forLoop _ _ (fun r i => i = r * C + c) _ _ 0 (R - 1)
      (fun r _ hr => fills_write _ _ _ _ (r * C + c) ?_))
  rintro ⟨out, inp⟩ ⟨hm2, hm1⟩
  simp only at hm2 hm1
  subst hm2
  have hlt1 : (r + 1) * C + c < R * C := sub2ind_lt (by omega) hc
  have hlt0 : r * C + c < R * C := sub2ind_lt (by omega) hc
  have e : r * C + c + C = (r + 1) * C + c := by ring
  obtain ⟨x1, hx1⟩ := exists_getElem? inp ((r + 1) * C + c) (by omega)
  obtain ⟨x0, hx0⟩ := exists_getElem? inp (r * C + c) (by omega)
  refine ⟨((out.set (r * C + c) (wrap ops (ops.sub x1 x0))), inp), wrap ops (ops.sub x1 x0),
    ?_, ⟨rfl, by simp [hm1]⟩, by simp only; omega, rfl, ?_⟩
  · have hw : r * C + c < out.length := by omega
    simp [sub2ind, hx1, hx0, writeAt, hw, wrap]
  · simp [diffAt, e, hx1, hx0]

theorem wrapped_diff_cols_fills {α : Type} (ops : FloatOps α) (INPUT : List α) (R C n : Nat)
    (hin : R * C ≤ INPUT.length) (hn : R * C ≤ n) :
    Fills (fun m : List α × List α => m.2 = INPUT ∧ m.1.length = n) Prod.fst
      (fun i => ∃ r, 0 ≤ r ∧ r < R ∧ ∃ c, 0 ≤ c ∧ c < C - 1 ∧ i = r * C + c)
      (diffAt ops INPUT 1)
      (fun m => wrapped_diff ops m.1 m.2 R C 2) := by
  refine fills_forLoop _ _ (fun r i => ∃ c, 0 ≤ c ∧ c < C - 1 ∧ i = r * C + c) _ _ 0 R
    (fun r _ hr => fills_forLoop _ _ (fun c i => i = r * C + c) _ _ 0 (C - 1)
      (fun c _ hc => fills_write _ _ _ _ (r * C + c) ?_))
  rintro ⟨out, inp⟩ ⟨hm2, hm1⟩
  simp only at hm2 hm1
  subst hm2
  have hlt1 : r * C + (c + 1) < R * C := sub2ind_lt hr (by omega)
  have hlt0 : r * C + c < R * C := sub2ind_lt hr (by omega)
  obtain ⟨x1, hx1⟩ := exists_getElem? inp (r * C + (c + 1)) (by omega)
  obtain ⟨x0, hx0⟩ := exists_getElem? inp (r * C + c) (by omega)
  refine ⟨((out.set (r * C + c) (wrap ops (ops.sub x1 x0))), inp), wrap ops (ops.sub x1 x0),
    ?_, ⟨rfl, by simp [hm1]⟩, by simp only; omega, rfl, ?_⟩
  · have hw : r * C + c < out.length := by omega
    simp [sub2ind, hx1, hx0, writeAt, hw, wrap]
  · have e : r * C + c + 1 = r * C + (c + 1) := by ring
    simp [diffAt, e, hx1, hx0]

theorem diffAt_eq_some {α : Type} (ops : FloatOps α) (INPUT : List α) (off i : Nat)
    (h : i + off < INPUT.length) :
    ∃ x1 x0, INPUT[i + off]? = some x1 ∧ INPUT[i]? = some x0 ∧
      diffAt ops INPUT off i = some (wrap ops (ops.sub x1 x0)) := by
  obtain ⟨x1, hx1⟩ := exists_getElem? INPUT (i + off) h
  obtain ⟨x0, hx0⟩ := exists_getElem? INPUT i (by omega)
  exact ⟨x1, x0, hx1, hx0, by simp [diffAt, hx1, hx0]⟩

/-- C4.  On an `R × C` input and an `R × C` output buffer, `wrapped_diff` with
`DIM = 1` returns (every access is in bounds), leaves the input as it was, and
the output it returns holds `wrap (INPUT[(r+1)*C + c] - INPUT[r*C + c])` at
every cell `(r, c)` with `r + 1 < R` and `c < C`, where
`wrap x = atan2 (sin x) (cos x)`, while every cell of the last row `R - 1` holds
what it held before the call. -/
theorem wrapped_diff_dim1_spec {α : Type} (ops : FloatOps α) (OUTPUT INPUT : List α)
    (R C : Nat) (hin : INPUT.length = R * C) (hout : OUTPUT.length = R * C) :
    ∃ out, wrapped_diff ops OUTPUT INPUT R C 1 = some (out, INPUT) ∧ out.length = R * C ∧
      (∀ r c, r + 1 < R → c < C → ∃ x1 x0,
        INPUT[(r + 1) * C + c]? = some x1 ∧ INPUT[r * C + c]? = some x0 ∧
        out[r * C + c]? = some (ops.atan2 (ops.sin (ops.sub x1 x0)) (ops.cos (ops.sub x1 x0)))) ∧
      (∀ c, c < C → out[(R - 1) * C + c]? = OUTPUT[(R - 1) * C + c]?) := by
  obtain ⟨⟨out, inp⟩, hrun, ⟨hinp, hlen⟩, _, hW, hnW⟩ :=
    wrapped_diff_rows_fills ops INPUT R C (R * C) (by omega) (Nat.le_refl _)
      (OUTPUT, INPUT) ⟨rfl, hout⟩
  simp only at hrun hinp hlen hW hnW
  subst hinp
  refine ⟨out, hrun, hlen, ?_, ?_⟩
  · intro r c hr hc
    have hlt : (r + 1) * C + c < R * C := sub2ind_lt hr hc
    have e : r * C + c + C = (r + 1) * C + c := by ring
    obtain ⟨x1, x0, hx1, hx0, hd⟩ := diffAt_eq_some ops inp C (r * C + c) (by omega)
    rw [e] at hx1
    refine ⟨x1, x0, hx1, hx0, ?_⟩
    rw [hW _ ⟨c, Nat.zero_le _, hc, r, Nat.zero_le _, by omega, rfl⟩, hd]
    rfl
  · intro c hc
    apply hnW
    rintro ⟨c', _, hc', r, _, hr, h⟩
    have := (sub2ind_inj hc hc' h).1
    omega

/-- C5.  On an `R × C` input and an `R × C` output buffer, `wrapped_diff` with
`DIM = 2` returns (every access is in bounds), leaves the input as it was, and
the output it returns holds `wrap (INPUT[r*C + c + 1] - INPUT[r*C + c])` at
every cell `(r, c)` with `r < R` and `c + 1 < C`, where
`wrap x = atan2 (sin x) (cos x)`, while every cell of the last column `C - 1`
holds what it held before the call. -/
theorem wrapped_diff_dim2_spec {α : Type} (ops : FloatOps α) (OUTPUT INPUT : List α)
    (R C : Nat) (hin : INPUT.length = R * C) (hout : OUTPUT.length = R * C) :
    ∃ out, wrapped_diff ops OUTPUT INPUT R C 2 = some (out, INPUT) ∧ out.length = R * C ∧
      (∀ r c, r < R → c + 1 < C → ∃ x1 x0,
        INPUT[r * C + c + 1]? = some x1 ∧ INPUT[r * C + c]? = some x0 ∧
        out[r * C + c]? = some (ops.atan2 (ops.sin (ops.sub x1 x0)) (ops.cos (ops.sub x1 x0)))) ∧
      (∀ r, r < R → out[r * C + (C - 1)]? = OUTPUT[r * C + (C - 1)]?) := by
  obtain ⟨⟨out, inp⟩, hrun, ⟨hinp, hlen⟩, _, hW, hnW⟩ :=
    wrapped_diff_cols_fills ops INPUT R C (R * C) (by omega) (Nat.le_refl _)
      (OUTPUT, INPUT) ⟨rfl, hout⟩
  simp only at hrun hinp hlen hW hnW
  subst hinp
  refine ⟨out, hrun, hlen, ?_, ?_⟩
  · intro r c hr hc
    have hlt : r * C + (c + 1) < R * C := sub2ind_lt hr hc
    obtain ⟨x1, x0, hx1, hx0, hd⟩ := diffAt_eq_some ops inp 1 (r * C + c) (by omega)
    refine ⟨x1, x0, hx1, hx0, ?_⟩
    rw [hW _ ⟨r, Nat.zero_le _, hr, c, Nat.zero_le _, by omega, rfl⟩, hd]
    rfl
  · intro r hr
    apply hnW
    rintro ⟨r', _, hr', c, _, hc, h⟩
    have := (sub2ind_inj (by omega) (by omega) h).2
    omega

/-! ## `standard_deviation` -/

theorem take_succ_of_getElem? {α : Type} (l : List α) (k : Nat) (x : α) (h : l[k]? = some x) :
    l.take (k + 1) = l.take k ++ [x] := by
  rw [List.take_succ, h]; rfl

/-- A loop that reads `INPUT[k]` and folds it into one field of the state. -/
theorem accumulate_loop {α : Type} (INPUT : List α) (N : Nat) (hN : N ≤ INPUT.length)
    (step : SdState α → α → SdState α) (acc : SdState α → α) (g : α → α → α)
    (hI : ∀ t x, (step t x).INPUT = t.INPUT)
    (Q : SdState α → Prop) (hQ : ∀ t x, Q t → Q (step t x))
    (hacc : ∀ t x, Q t → acc (step t x) = g (acc t) x)
    (s : SdState α) (hs : s.INPUT = INPUT) (hQs : Q s) :
    ∃ s', forLoop 0 N (fun k t => do
        let x ← t.INPUT[k]?
        pure (step t x)) s = some s' ∧
      s'.INPUT = INPUT ∧ Q s' ∧ acc s' = (INPUT.take N).foldl g (acc s) := by
  obtain ⟨s', hs', h1, h2, h3⟩ := forLoop_inv
    (fun k t => do
        let x ← t.INPUT[k]?
        pure (step t x))
    (fun k t => t.INPUT = INPUT ∧ Q t ∧ acc t = (INPUT.take k).foldl g (acc s))
    0 N s (Nat.zero_le _) ⟨hs, hQs, by simp⟩
    (by
      intro k t _ hk ⟨ht, hQt, hacct⟩
      obtain ⟨x, hx⟩ := exists_getElem? INPUT k (by omega)
      refine ⟨step t x, by simp [ht, hx], by rw [hI, ht], hQ t x hQt, ?_⟩
      rw [hacc t x hQt, hacct, take_succ_of_getElem? INPUT k x hx, List.foldl_append]
      rfl)
  exact ⟨s', hs', h1, h2, h3⟩

theorem standard_deviation_eq {α : Type} (ops : FloatOps α) (RESULT : α) (INPUT : List α)
    (N : Nat) (hN : N ≤ INPUT.length) :
    standard_deviation ops RESULT INPUT N = some (stdOf ops (INPUT.take N) N, INPUT) := by
  obtain ⟨s1, hs1, hI1, hQ1, hm1⟩ := accumulate_loop INPUT N hN
    (fun t x => { t with mean := ops.add t.mean x }) (fun t => t.mean) ops.add
    (fun _ _ => rfl)
    (fun t => t.sum_deviation = ops.zero) (fun _ _ h => h) (fun _ _ _ => rfl)
    { RESULT := RESULT, INPUT := INPUT, mean := ops.zero, sum_deviation := ops.zero } rfl rfl
  obtain ⟨s2, hs2, hI2, hQ2, hm2⟩ := accumulate_loop INPUT N hN
    (fun t x => { t with
      sum_deviation := ops.add t.sum_deviation (ops.mul (ops.sub x t.mean) (ops.sub x t.mean)) })
    (fun t => t.sum_deviation)
    (fun acc x => ops.add acc (ops.mul (ops.sub x (meanOf ops (INPUT.take N) N))
      (ops.sub x (meanOf ops (INPUT.take N) N))))
    (fun _ _ => rfl)
    (fun t => t.mean = meanOf ops (INPUT.take N) N) (fun _ _ h => h)
    (fun t x ht => by
      show ops.add t.sum_deviation (ops.mul (ops.sub x t.mean) (ops.sub x t.mean)) = _
      rw [ht])
    { s1 with mean := ops.div s1.mean (ops.ofNat N) } hI1 (by simp [hm1, meanOf])
  simp only [hQ1] at hm2
  simp only [Option.bind_eq_bind, Option.pure_def] at hs1 hs2
  simp only [standard_deviation, hs1, hs2, Option.bind_eq_bind, Option.some_bind, Option.pure_def,
    hI2, hm2, stdOf]

theorem real_foldl_add (g : ℝ → ℝ) (l : List ℝ) (a : ℝ) :
    l.foldl (fun acc x => acc + g x) a = a + (l.map g).sum := by
  induction l generalizing a with
  | nil => simp
  | cons x xs ih => simp [List.foldl_cons, ih, add_assoc]

theorem meanOf_real (l : List ℝ) (N : Nat) : meanOf realOps l N = l.sum / N := by
  have h := real_foldl_add (fun x => x) l 0
  simp only [List.map_id', zero_add] at h
  simp only [meanOf, realOps]
  rw [h]

theorem stdOf_real (l : List ℝ) (N : Nat) :
    stdOf realOps l N = Real.sqrt ((l.map (fun x => (x - l.sum / N) ^ 2)).sum / N) := by
  have h := real_foldl_add (fun x => (x - l.sum / N) * (x - l.sum / N)) l 0
  simp only [zero_add] at h
  have e : (fun x : ℝ => (x - l.sum / N) ^ 2) = fun x => (x - l.sum / N) * (x - l.sum / N) := by
    funext x; ring
  rw [e, ← h]
  simp only [stdOf, meanOf_real]
  rfl

theorem sum_map_set_replicate (g : ℝ → ℝ) (m v : ℝ) :
    ∀ (N j : Nat), j < N →
      (((List.replicate N m).set j v).map g).sum = ((N : ℝ) - 1) * g m + g v := by
  intro N
  induction N with
  | zero => intro j hj; omega
  | succ N ih =>
    intro j hj
    cases j with
    | zero =>
      simp [List.replicate_succ]
      ring
    | succ j =>
      have h := ih j (by omega)
      simp only [List.replicate_succ, List.set_cons_succ, List.map_cons, List.sum_cons, h]
      push_cast
      ring

/-- C7.  Over the reals the wrap `atan2 (sin x) (cos x)` that `wrapped_diff`
applies is unchanged by adding an integer multiple of `2π` to its argument. -/
theorem wrap_add_two_pi_mul (x : ℝ) (k : ℤ) :
    wrap realOps (x + 2 * Real.pi * k) = wrap realOps x := by
  have e : x + 2 * Real.pi * k = x + k * (2 * Real.pi) := by ring
  simp only [wrap, realOps, e, Real.sin_add_int_mul_two_pi, Real.cos_add_int_mul_two_pi]

/-! ## `extract_subregion` -/

theorem sub2ind_div {r c C : Nat} (hc : c < C) : (r * C + c) / C = r := by
  have hC : 0 < C := by omega
  rw [Nat.add_comm, Nat.add_mul_div_right _ _ hC, Nat.div_eq_of_lt hc]; simp

theorem sub2ind_mod {r c C : Nat} (hc : c < C) : (r * C + c) % C = c := by
  rw [Nat.add_comm, Nat.add_mul_mod_self_right, Nat.mod_eq_of_lt hc]

theorem extract_subregion_fills {α : Type} (SOURCE : List α)
    (o_r o_c SNR SNC DNR DNC n : Nat) (hr : o_r + DNR ≤ SNR) (hc : o_c + DNC ≤ SNC)
    (hs : SNR * SNC ≤ SOURCE.length) (hn : DNR * DNC ≤ n) :
    Fills (fun m : List α × List α => m.2 = SOURCE ∧ m.1.length = n) Prod.fst
      (fun i => ∃ r, 0 ≤ r ∧ r < DNR ∧ ∃ c, 0 ≤ c ∧ c < DNC ∧ i = r * DNC + c)
      (sourceAt SOURCE o_r o_c SNC DNC)
      (fun m => extract_subregion m.1 m.2 o_r o_c SNR SNC DNR DNC) := by
  refine fills_forLoop _ _ (fun r i => ∃ c, 0 ≤ c ∧ c < DNC ∧ i = r * DNC + c) _ _ 0 DNR
    (fun r _ hr' => fills_forLoop _ _ (fun c i => i = r * DNC + c) _ _ 0 DNC
      (fun c _ hc' => fills_write _ _ _ _ (r * DNC + c) ?_))
  rintro ⟨dst, src⟩ ⟨hm2, hm1⟩
  simp only at hm2 hm1
  subst hm2
  have hlts : (r + o_r) * SNC + (c + o_c) < SNR * SNC := sub2ind_lt (by omega) (by omega)
  have hltd : r * DNC + c < DNR * DNC := sub2ind_lt hr' hc'
  obtain ⟨v, hv⟩ := exists_getElem? src ((r + o_r) * SNC + (c + o_c)) (by omega)
  refine ⟨((dst.set (r * DNC + c) v), src), v, ?_, ⟨rfl, by simp [hm1]⟩, by simp only; omega,
    rfl, ?_⟩
  · have hw : r * DNC + c < dst.length := by omega
    simp [sub2ind, hv, writeAt, hw]
  · simp [sourceAt, sub2ind, sub2ind_div hc', sub2ind_mod hc', hv]

/-- C10.  For a source field of `SOURCE_NUM_ROWS × SOURCE_NUM_COLS` cells, an
origin `(o_r, o_c)` and a `k × k` window lying inside the source,
`extract_subregion` into a `k * k` buffer returns, hands the source back as it
was, and the destination holds at `i * k + j` the source cell
`(o_r + i) * SOURCE_NUM_COLS + (o_c + j)`, for all `i, j < k`. -/
theorem extract_subregion_spec {α : Type} (DEST SOURCE : List α)
    (o_r o_c SOURCE_NUM_ROWS SOURCE_NUM_COLS k : Nat)
    (hsrc : SOURCE.length = SOURCE_NUM_ROWS * SOURCE_NUM_COLS)
    (hdst : DEST.length = k * k)
    (hrow : o_r + k ≤ SOURCE_NUM_ROWS) (hcol : o_c + k ≤ SOURCE_NUM_COLS) :
    ∃ dest, extract_subregion DEST SOURCE o_r o_c SOURCE_NUM_ROWS SOURCE_NUM_COLS k k
        = some (dest, SOURCE) ∧ dest.length = k * k ∧
      ∀ i j, i < k → j < k → ∃ v,
        SOURCE[(o_r + i) * SOURCE_NUM_COLS + (o_c + j)]? = some v ∧
        dest[i * k + j]? = some v := by
  obtain ⟨⟨dest, src⟩, hrun, ⟨hsrc', hlen⟩, _, hW, _⟩ :=
    extract_subregion_fills SOURCE o_r o_c SOURCE_NUM_ROWS SOURCE_NUM_COLS k k (k * k)
      hrow hcol (by omega) (Nat.le_refl _) (DEST, SOURCE) ⟨rfl, hdst⟩
  simp only at hrun hsrc' hlen hW
  subst hsrc'
  refine ⟨dest, hrun, hlen, ?_⟩
  intro i j hi hj
  have hlts : (o_r + i) * SOURCE_NUM_COLS + (o_c + j) < SOURCE_NUM_ROWS * SOURCE_NUM_COLS :=
    sub2ind_lt (by omega) (by omega)
  obtain ⟨v, hv⟩ := exists_getElem? src _ (by rw [hsrc]; exact hlts)
  refine ⟨v, hv, ?_⟩
  rw [hW _ ⟨i, Nat.zero_le _, hi, j, Nat.zero_le _, hj, rfl⟩]
  simp only [sourceAt, sub2ind, sub2ind_div hj, sub2ind_mod hj, Nat.add_comm i o_r,
    Nat.add_comm j o_c, hv]

theorem window_index (k p : Nat) (hp : p < k * k) :
    p / k < k ∧ p % k < k ∧ p = p / k * k + p % k := by
  have hk : 0 < k := by
    rcases Nat.eq_zero_or_pos k with h | h
    · subst h; simp at hp
    · exact h
  refine ⟨Nat.div_lt_of_lt_mul hp, Nat.mod_lt _ hk, ?_⟩
  have := Nat.div_add_mod p k
  rw [Nat.mul_comm] at this
  omega

theorem extract_subregion_eq_windowOf {α : Type} (DEST SOURCE : List α)
    (o_r o_c SNR SNC k : Nat) (hs : SNR * SNC ≤ SOURCE.length) (hd : DEST.length = k * k)
    (hr : o_r + k ≤ SNR) (hc : o_c + k ≤ SNC) :
    extract_subregion DEST SOURCE o_r o_c SNR SNC k k
      = some (windowOf SOURCE o_r o_c SNC k, SOURCE) ∧
    (windowOf SOURCE o_r o_c SNC k).length = k * k ∧
    ∀ i j, i < k → j < k → ∃ v, SOURCE[(o_r + i) * SNC + (o_c + j)]? = some v ∧
      (windowOf SOURCE o_r o_c SNC k)[i * k + j]? = some v := by
  obtain ⟨⟨dest, src⟩, hrun, ⟨hsrc', hlen⟩, _, hW, _⟩ :=
    extract_subregion_fills SOURCE o_r o_c SNR SNC k k (k * k)
      hr hc hs (Nat.le_refl _) (DEST, SOURCE) ⟨rfl, hd⟩
  simp only at hrun hsrc' hlen hW
  subst hsrc'
  have hcell : ∀ i j, i < k → j < k → ∃ v, src[(o_r + i) * SNC + (o_c + j)]? = some v ∧
      sourceAt src o_r o_c SNC k (i * k + j) = some v := by
    intro i j hi hj
    have hlts : (o_r + i) * SNC + (o_c + j) < SNR * SNC := sub2ind_lt (by omega) (by omega)
    obtain ⟨v, hv⟩ := exists_getElem? src _ (Nat.lt_of_lt_of_le hlts hs)
    refine ⟨v, hv, ?_⟩
    simp only [sourceAt, sub2ind, sub2ind_div hj, sub2ind_mod hj, Nat.add_comm i o_r,
      Nat.add_comm j o_c, hv]
  have hmap : dest.map some = (List.range (k * k)).map (sourceAt src o_r o_c SNC k) := by
    apply List.ext_getElem?
    intro p
    by_cases hp : p < k * k
    · obtain ⟨h1, h2, h3⟩ := window_index k p hp
      have hWp := hW p ⟨p / k, Nat.zero_le _, h1, p % k, Nat.zero_le _, h2, h3⟩
      obtain ⟨v, _, hv⟩ := hcell (p / k) (p % k) h1 h2
      rw [← h3] at hv
      rw [List.getElem?_map, List.getElem?_map, List.getElem?_range hp, hWp, hv]
      simp only [Option.map_some', hv]
    · have h1 : (dest.map some).length ≤ p := by simp only [List.length_map]; omega
      have h2 : ((List.range (k * k)).map (sourceAt src o_r o_c SNC k)).length ≤ p := by
        simp only [List.length_map, List.length_range]; omega
      rw [List.getElem?_eq_none h1, List.getElem?_eq_none h2]
  have hwin : windowOf src o_r o_c SNC k = dest := by
    have e : (List.range (k * k)).filterMap (sourceAt src o_r o_c SNC k)
        = ((List.range (k * k)).map (sourceAt src o_r o_c SNC k)).filterMap id := by
      rw [List.filterMap_map]; rfl
    rw [windowOf, e, ← hmap, List.filterMap_map]
    exact List.filterMap_some dest
  rw [hwin]
  refine ⟨hrun, hlen, ?_⟩
  intro i j hi hj
  obtain ⟨v, hv, hsv⟩ := hcell i j hi hj
  exact ⟨v, hv, (hW _ ⟨i, Nat.zero_le _, hi, j, Nat.zero_le _, hj, rfl⟩).trans hsv⟩

/-! ## `calculate_phase_quality` -/

theorem quality_pixel_fills {α : Type} (ops : FloatOps α) (IMG dR dC : List α)
    (R C radius n r c : Nat) (hdR : R * C ≤ dR.length) (hdC : R * C ≤ dC.length)
    (hn : R * C ≤ n) (hr1 : radius ≤ r) (hr2 : r < R - radius)
    (hc1 : radius ≤ c) (hc2 : c < C - radius) :
    Fills (QualityInv IMG dR dC radius n) (fun m => m.PHASE_QUALITY_ARRAY)
      (fun i => i = r * C + c) (fun i => some (qualityAt ops dR dC C radius i))
      (quality_pixel ops R C radius r c) := by
  apply fills_write
  rintro ⟨q, img, pr, pc, rr, cr, rs, cs⟩ ⟨h1, h2, h3, h4, h5, h6⟩
  simp only at h1 h2 h3 h4 h5 h6
  subst h1 h2 h3
  obtain ⟨er, elr, _⟩ := extract_subregion_eq_windowOf rr pr (r - radius) (c - radius) R C
    (2 * radius + 1) hdR h4 (by omega) (by omega)
  obtain ⟨ec, elc, _⟩ := extract_subregion_eq_windowOf cr pc (r - radius) (c - radius) R C
    (2 * radius + 1) hdC h5 (by omega) (by omega)
  have sr := standard_deviation_eq ops rs
    (windowOf pr (r - radius) (c - radius) C (2 * radius + 1))
    ((2 * radius + 1) * (2 * radius + 1)) (by omega)
  have sc := standard_deviation_eq ops cs
    (windowOf pc (r - radius) (c - radius) C (2 * radius + 1))
    ((2 * radius + 1) * (2 * radius + 1)) (by omega)
  rw [List.take_of_length_le (by omega)] at sr sc
  have hlt : r * C + c < R * C := sub2ind_lt (by omega) (by omega)
  have hw : r * C + c < q.length := by omega
  have hcC : c < C := by omega
  refine ⟨
    { PHASE_QUALITY_ARRAY := q.set (r * C + c)
        (ops.add
          (stdOf ops (windowOf pr (r - radius) (c - radius) C (2 * radius + 1))
            ((2 * radius + 1) * (2 * radius + 1)))
          (stdOf ops (windowOf pc (r - radius) (c - radius) C (2 * radius + 1))
            ((2 * radius + 1) * (2 * radius + 1))))
      WRAPPED_PHASE_ANGLE := img
      phase_diff_rows := pr
      phase_diff_cols := pc
      row_diffs_region := windowOf pr (r - radius) (c - radius) C (2 * radius + 1)
      col_diffs_region := windowOf pc (r - radius) (c - radius) C (2 * radius + 1)
      row_std_dev := stdOf ops (windowOf pr (r - radius) (c - radius) C (2 * radius + 1))
            ((2 * radius + 1) * (2 * radius + 1))
      col_std_dev := stdOf ops (windowOf pc (r - radius) (c - radius) C (2 * radius + 1))
            ((2 * radius + 1) * (2 * radius + 1)) },
    _, ?_, ?_, hw, rfl, ?_⟩
  · simp only [quality_pixel, er, ec, sr, sc, sub2ind, writeAt, hw, Option.bind_eq_bind,
      Option.some_bind, Option.pure_def, if_true]
  · exact ⟨rfl, rfl, rfl, elr, elc, by simp [h6]⟩
  · simp only [qualityAt, sub2ind_div hcC, sub2ind_mod hcC]

theorem calculate_phase_quality_fills {α : Type} (ops : FloatOps α) (uninit : Nat → Nat → α)
    (Q IMG : List α) (R C radius : Nat) (himg : R * C ≤ IMG.length) (hq : R * C ≤ Q.length) :
    ∃ dR dC q,
      wrapped_diff ops (calloc ops (R * C)) IMG R C 1 = some (dR, IMG) ∧ dR.length = R * C ∧
      wrapped_diff ops (calloc ops (R * C)) IMG R C 2 = some (dC, IMG) ∧ dC.length = R * C ∧
      calculate_phase_quality ops uninit Q IMG R C radius = some (q, IMG) ∧
      q.length = Q.length ∧
      (∀ r c, radius ≤ r → r < R - radius → radius ≤ c → c < C - radius →
        q[r * C + c]? = some (qualityAt ops dR dC C radius (r * C + c))) ∧
      (∀ i, ¬ (∃ r, radius ≤ r ∧ r < R - radius ∧
          ∃ c, radius ≤ c ∧ c < C - radius ∧ i = r * C + c) → q[i]? = Q[i]?) := by
  obtain ⟨⟨dR, i1⟩, hR, ⟨hi1, hlR⟩, _, _, _⟩ :=
    wrapped_diff_rows_fills ops IMG R C (R * C) himg (Nat.le_refl _)
      (calloc ops (R * C), IMG) ⟨rfl, by simp [calloc]⟩
  obtain ⟨⟨dC, i2⟩, hC, ⟨hi2, hlC⟩, _, _, _⟩ :=
    wrapped_diff_cols_fills ops IMG R C (R * C) himg (Nat.le_refl _)
      (calloc ops (R * C), IMG) ⟨rfl, by simp [calloc]⟩
  simp only at hR hi1 hlR hC hi2 hlC
  rw [hi1] at hR
  rw [hi2] at hC
  obtain ⟨m, hm, ⟨hm1, _⟩, hlen, hW, hnW⟩ :=
    fills_forLoop (QualityInv IMG dR dC radius Q.length) (fun m => m.PHASE_QUALITY_ARRAY)
      (fun r i => ∃ c, radius ≤ c ∧ c < C - radius ∧ i = r * C + c)
      (fun i => some (qualityAt ops dR dC C radius i))
      (fun r m => forLoop radius (C - radius)
        (fun c m => quality_pixel ops R C radius r c m) m)
      radius (R - radius)
      (fun r h1 h2 => fills_forLoop _ _ (fun c i => i = r * C + c) _ _ radius (C - radius)
        (fun c h3 h4 => quality_pixel_fills ops IMG dR dC R C radius Q.length r c
          (by omega) (by omega) hq h1 h2 h3 h4))
      { PHASE_QUALITY_ARRAY := Q
        WRAPPED_PHASE_ANGLE := IMG
        phase_diff_rows := dR
        phase_diff_cols := dC
        row_diffs_region := malloc (uninit 0) ((2 * radius + 1) * (2 * radius + 1))
        col_diffs_region := malloc (uninit 1) ((2 * radius + 1) * (2 * radius + 1))
        row_std_dev := uninit 2 0
        col_std_dev := uninit 3 0 }
      ⟨rfl, rfl, rfl, by simp [malloc], by simp [malloc], rfl⟩
  simp only at hlen hW hnW
  refine ⟨dR, dC, m.PHASE_QUALITY_ARRAY, hR, hlR, hC, hlC, ?_, hlen, ?_, hnW⟩
  · simp only [calculate_phase_quality, hR, hC, hm, Option.bind_eq_bind, Option.some_bind,
      Option.pure_def, hm1]
  · intro r c h1 h2 h3 h4
    exact hW _ ⟨r, h1, h2, c, h3, h4, rfl⟩

/-- C1.  On an `R × C` image and an `R × C` quality array,
`calculate_phase_quality` returns, and every interior cell `(r, c)`, with
`radius ≤ r < R - radius` and `radius ≤ c < C - radius`, of the quality array
it returns holds `standard_deviation W_row + standard_deviation W_col`, where
`W_row` and `W_col` are the `(2*radius+1) × (2*radius+1)` windows with top-left
corner `(r - radius, c - radius)` of the fields `wrapped_diff` computes for
`DIM = 1` and `DIM = 2` into zero-filled buffers.  (An interior cell exists
only when `2 * radius < min R C`.) -/
theorem calculate_phase_quality_interior {α : Type} (ops : FloatOps α)
    (uninit : Nat → Nat → α) (Q IMG : List α) (R C radius : Nat)
    (himg : IMG.length = R * C) (hq : Q.length = R * C) (hrad : 2 * radius < min R C) :
    ∃ dR dC q,
      wrapped_diff ops (calloc ops (R * C)) IMG R C 1 = some (dR, IMG) ∧
      wrapped_diff ops (calloc ops (R * C)) IMG R C 2 = some (dC, IMG) ∧
      calculate_phase_quality ops uninit Q IMG R C radius = some (q, IMG) ∧
      ∀ r c, radius ≤ r → r < R - radius → radius ≤ c → c < C - radius →
        ∃ W_row W_col sd_row sd_col,
          W_row.length = (2 * radius + 1) * (2 * radius + 1) ∧
          (∀ i j, i < 2 * radius + 1 → j < 2 * radius + 1 → ∃ v,
            dR[(r - radius + i) * C + (c - radius + j)]? = some v ∧
            W_row[i * (2 * radius + 1) + j]? = some v) ∧
          W_col.length = (2 * radius + 1) * (2 * radius + 1) ∧
          (∀ i j, i < 2 * radius + 1 → j < 2 * radius + 1 → ∃ v,
            dC[(r - radius + i) * C + (c - radius + j)]? = some v ∧
            W_col[i * (2 * radius + 1) + j]? = some v) ∧
          (∀ x, standard_deviation ops x W_row ((2 * radius + 1) * (2 * radius + 1))
            = some (sd_row, W_row)) ∧
          (∀ x, standard_deviation ops x W_col ((2 * radius + 1) * (2 * radius + 1))
            = some (sd_col, W_col)) ∧
          q[r * C + c]? = some (ops.add sd_row sd_col) := by
  have _ := hrad
  obtain ⟨dR, dC, q, hR, hlR, hC, hlC, hrun, _, hW, _⟩ :=
    calculate_phase_quality_fills ops uninit Q IMG R C radius (by omega) (by omega)
  refine ⟨dR, dC, q, hR, hC, hrun, ?_⟩
  intro r c h1 h2 h3 h4
  have hcC : c < C := by omega
  obtain ⟨_, elr, hcr⟩ := extract_subregion_eq_windowOf
    (calloc ops ((2 * radius + 1) * (2 * radius + 1))) dR (r - radius) (c - radius) R C
    (2 * radius + 1) (by omega) (by simp [calloc]) (by omega) (by omega)
  obtain ⟨_, elc, hcc⟩ := extract_subregion_eq_windowOf
    (calloc ops ((2 * radius + 1) * (2 * radius + 1))) dC (r - radius) (c - radius) R C
    (2 * radius + 1) (by omega) (by simp [calloc]) (by omega) (by omega)
  refine ⟨windowOf dR (r - radius) (c - radius) C (2 * radius + 1),
    windowOf dC (r - radius) (c - radius) C (2 * radius + 1),
    stdOf ops (windowOf dR (r - radius) (c - radius) C (2 * radius + 1))
      ((2 * radius + 1) * (2 * radius + 1)),
    stdOf ops (windowOf dC (r - radius) (c - radius) C (2 * radius + 1))
      ((2 * radius + 1) * (2 * radius + 1)),
    elr, hcr, elc, hcc, ?_, ?_, ?_⟩
  · intro x
    have h := standard_deviation_eq ops x
      (windowOf dR (r - radius) (c - radius) C (2 * radius + 1))
      ((2 * radius + 1) * (2 * radius + 1)) (by omega)
    rw [List.take_of_length_le (by omega)] at h
    exact h
  · intro x
    have h := standard_deviation_eq ops x
      (windowOf dC (r - radius) (c - radius) C (2 * radius + 1))
      ((2 * radius + 1) * (2 * radius + 1)) (by omega)
    rw [List.take_of_length_le (by omega)] at h
    exact h
  · rw [hW r c h1 h2 h3 h4]
    simp only [qualityAt, sub2ind_div hcC, sub2ind_mod hcC]

/-- C2.  On an `R × C` image and an `R × C` quality array, for every radius,
`calculate_phase_quality` returns, and every cell `(r, c)` of the quality array
whose row or column lies within `radius` of an edge (`r < radius`,
`R - radius ≤ r`, `c < radius` or `C - radius ≤ c`) holds what it held before
the call; on the zero-filled array that `main` allocates it holds zero. -/
theorem calculate_phase_quality_border {α : Type} (ops : FloatOps α)
    (uninit : Nat → Nat → α) (Q IMG : List α) (R C radius : Nat)
    (himg : IMG.length = R * C) (hq : Q.length = R * C) :
    ∃ q, calculate_phase_quality ops uninit Q IMG R C radius = some (q, IMG) ∧
      q.length = R * C ∧
      ∀ r c, r < R → c < C →
        (r < radius ∨ R - radius ≤ r ∨ c < radius ∨ C - radius ≤ c) →
        q[r * C + c]? = Q[r * C + c]? ∧
        (Q = calloc ops (R * C) → q[r * C + c]? = some ops.zero) := by
  obtain ⟨dR, dC, q, _, _, _, _, hrun, hlen, _, hnW⟩ :=
    calculate_phase_quality_fills ops uninit Q IMG R C radius (by omega) (by omega)
  refine ⟨q, hrun, by omega, ?_⟩
  intro r c hr hc hborder
  have hkeep : q[r * C + c]? = Q[r * C + c]? := by
    apply hnW
    rintro ⟨r', h1, h2, c', h3, h4, h⟩
    obtain ⟨e1, e2⟩ := sub2ind_inj hc (by omega) h
    omega
  refine ⟨hkeep, ?_⟩
  intro hQ
  rw [hkeep, hQ]
  have hlt : r * C + c < R * C := sub2ind_lt hr hc
  simp [calloc, List.getElem?_replicate, hlt]

/-! ## Constant images -/

theorem wrap_real_zero : wrap realOps 0 = 0 := by
  have e : (⟨1, 0⟩ : ℂ) = 1 := rfl
  simp only [wrap, realOps, Real.sin_zero, Real.cos_zero, e, Complex.arg_one]

theorem list_eq_replicate {α : Type} (l : List α) (n : Nat) (a : α) (hlen : l.length = n)
    (h : ∀ i, i < n → l[i]? = some a) : l = List.replicate n a := by
  refine List.eq_replicate_iff.mpr ⟨hlen, ?_⟩
  intro b hb
  obtain ⟨i, hi⟩ := List.mem_iff_getElem?.mp hb
  have hlt : i < l.length := by
    by_contra hge
    rw [List.getElem?_eq_none (by omega)] at hi
    cases hi
  have := h i (by omega)
  rw [hi] at this
  exact Option.some.inj this

theorem getElem?_replicate_some {α : Type} (n i : Nat) (a x : α)
    (h : (List.replicate n a)[i]? = some x) : x = a := by
  rw [List.getElem?_replicate] at h
  split at h
  · exact (Option.some.inj h).symm
  · cases h

theorem diffAt_replicate (v : ℝ) (n off i : Nat) (h : i + off < n) :
    diffAt realOps (List.replicate n v) off i = some 0 := by
  obtain ⟨x1, x0, h1, h0, hd⟩ :=
    diffAt_eq_some realOps (List.replicate n v) off i (by simpa using h)
  have e1 := getElem?_replicate_some n _ v x1 h1
  have e0 := getElem?_replicate_some n _ v x0 h0
  subst e1 e0
  rw [hd]
  have e : realOps.sub x0 x0 = 0 := sub_self x0
  rw [e, wrap_real_zero]

theorem wrapped_diff_constant (v : ℝ) (R C : Nat) :
    wrapped_diff realOps (calloc realOps (R * C)) (List.replicate (R * C) v) R C 1
      = some (List.replicate (R * C) 0, List.replicate (R * C) v) ∧
    wrapped_diff realOps (calloc realOps (R * C)) (List.replicate (R * C) v) R C 2
      = some (List.replicate (R * C) 0, List.replicate (R * C) v) := by
  have hz : ∀ i, i < R * C → (calloc realOps (R * C))[i]? = some (0 : ℝ) := by
    intro i hi
    simp only [calloc, List.getElem?_replicate, hi, if_true]
    rfl
  constructor
  · obtain ⟨⟨out, inp⟩, hrun, ⟨hinp, hlen⟩, _, hW, hnW⟩ :=
      wrapped_diff_rows_fills realOps (List.replicate (R * C) v) R C (R * C) (by simp)
        (Nat.le_refl _) (calloc realOps (R * C), List.replicate (R * C) v)
        ⟨rfl, by simp [calloc]⟩
    simp only at hrun hinp hlen hW hnW
    rw [hrun, hinp]
    have : out = List.replicate (R * C) 0 := by
      apply list_eq_replicate out (R * C) 0 hlen
      intro i hi
      by_cases hWi : ∃ c, 0 ≤ c ∧ c < C ∧ ∃ r, 0 ≤ r ∧ r < R - 1 ∧ i = r * C + c
      · rw [hW i hWi]
        obtain ⟨c, _, hc, r, _, hr, rfl⟩ := hWi
        have hlt : (r + 1) * C + c < R * C := sub2ind_lt (by omega) hc
        have e : r * C + c + C = (r + 1) * C + c := by ring
        exact diffAt_replicate v (R * C) C (r * C + c) (by omega)
      · rw [hnW i hWi]; exact hz i hi
    rw [this]
  · obtain ⟨⟨out, inp⟩, hrun, ⟨hinp, hlen⟩, _, hW, hnW⟩ :=
      wrapped_diff_cols_fills realOps (List.replicate (R * C) v) R C (R * C) (by simp)
        (Nat.le_refl _) (calloc realOps (R * C), List.replicate (R * C) v)
        ⟨rfl, by simp [calloc]⟩
    simp only at hrun hinp hlen hW hnW
    rw [hrun, hinp]
    have : out = List.replicate (R * C) 0 := by
      apply list_eq_replicate out (R * C) 0 hlen
      intro i hi
      by_cases hWi : ∃ r, 0 ≤ r ∧ r < R ∧ ∃ c, 0 ≤ c ∧ c < C - 1 ∧ i = r * C + c
      · rw [hW i hWi]
        obtain ⟨r, _, hr, c, _, hc, rfl⟩ := hWi
        have hlt : r * C + (c + 1) < R * C := sub2ind_lt hr (by omega)
        exact diffAt_replicate v (R * C) 1 (r * C + c) (by omega)
      · rw [hnW i hWi]; exact hz i hi
    rw [this]

theorem windowOf_replicate {α : Type} (a : α) (o_r o_c SNR SNC k : Nat)
    (hr : o_r + k ≤ SNR) (hc : o_c + k ≤ SNC) :
    windowOf (List.replicate (SNR * SNC) a) o_r o_c SNC k = List.replicate (k * k) a := by
  obtain ⟨_, hlen, hcell⟩ := extract_subregion_eq_windowOf (List.replicate (k * k) a)
    (List.replicate (SNR * SNC) a) o_r o_c SNR SNC k (by simp) (by simp) hr hc
  apply list_eq_replicate _ _ _ hlen
  intro p hp
  obtain ⟨h1, h2, h3⟩ := window_index k p hp
  obtain ⟨v, hv, hw⟩ := hcell (p / k) (p % k) h1 h2
  rw [← h3] at hw
  rw [hw, getElem?_replicate_some _ _ a v hv]

theorem stdOf_real_zeros (N : Nat) : stdOf realOps (List.replicate N (0 : ℝ)) N = 0 := by
  rw [stdOf_real]
  simp

/-- C3.  Over the reals, for an `R × C` image whose pixels all hold the same
phase `v`, `calculate_phase_quality` returns and every interior cell `(r, c)`,
with `radius ≤ r < R - radius` and `radius ≤ c < C - radius`, of the quality
array it returns is exactly zero.  (An interior cell exists only when
`2 * radius < min R C`.) -/
theorem calculate_phase_quality_constant (uninit : Nat → Nat → ℝ) (Q : List ℝ) (v : ℝ)
    (R C radius : Nat) (hq : Q.length = R * C) (hrad : 2 * radius < min R C) :
    ∃ q, calculate_phase_quality realOps uninit Q (List.replicate (R * C) v) R C radius
        = some (q, List.replicate (R * C) v) ∧
      ∀ r c, radius ≤ r → r < R - radius → radius ≤ c → c < C - radius →
        q[r * C + c]? = some 0 := by
  have _ := hrad
  obtain ⟨dR, dC, q, hR, _, hC, _, hrun, _, hW, _⟩ :=
    calculate_phase_quality_fills realOps uninit Q (List.replicate (R * C) v) R C radius
      (by simp) (by omega)
  obtain ⟨hR0, hC0⟩ := wrapped_diff_constant v R C
  rw [hR0] at hR
  rw [hC0] at hC
  have eR : dR = List.replicate (R * C) 0 := (Prod.mk.inj (Option.some.inj hR)).1.symm
  have eC : dC = List.replicate (R * C) 0 := (Prod.mk.inj (Option.some.inj hC)).1.symm
  subst eR eC
  refine ⟨q, hrun, ?_⟩
  intro r c h1 h2 h3 h4
  have hcC : c < C := by omega
  rw [hW r c h1 h2 h3 h4]
  simp only [qualityAt, sub2ind_div hcC, sub2ind_mod hcC]
  rw [windowOf_replicate (0 : ℝ) (r - radius) (c - radius) R C (2 * radius + 1)
    (by omega) (by omega), stdOf_real_zeros]
  have e : realOps.add 0 0 = (0 : ℝ) := add_zero 0
  rw [e]

/-! ## The theorems at concrete inputs -/

/-- C1 at a `3 × 3` image with radius `1`: the one interior cell is `(1, 1)`. -/
theorem calculate_phase_quality_interior_witness :
    ([0, 1, 2, 3, 4, 5, 6, 7, 8] : List ℝ).length = 3 * 3 ∧
    (List.replicate 9 (0 : ℝ)).length = 3 * 3 ∧ 2 * 1 < min 3 3 ∧
    ∃ dR dC q,
      wrapped_diff realOps (calloc realOps (3 * 3)) [0, 1, 2, 3, 4, 5, 6, 7, 8] 3 3 1
        = some (dR, [0, 1, 2, 3, 4, 5, 6, 7, 8]) ∧
      wrapped_diff realOps (calloc realOps (3 * 3)) [0, 1, 2, 3, 4, 5, 6, 7, 8] 3 3 2
        = some (dC, [0, 1, 2, 3, 4, 5, 6, 7, 8]) ∧
      calculate_phase_quality realOps (fun _ _ => 7) (List.replicate 9 0)
        [0, 1, 2, 3, 4, 5, 6, 7, 8] 3 3 1 = some (q, [0, 1, 2, 3, 4, 5, 6, 7, 8]) ∧
      ∀ r c, 1 ≤ r → r < 3 - 1 → 1 ≤ c → c < 3 - 1 →
        ∃ W_row W_col sd_row sd_col,
          W_row.length = (2 * 1 + 1) * (2 * 1 + 1) ∧
          (∀ i j, i < 2 * 1 + 1 → j < 2 * 1 + 1 → ∃ v,
            dR[(r - 1 + i) * 3 + (c - 1 + j)]? = some v ∧
            W_row[i * (2 * 1 + 1) + j]? = some v) ∧
          W_col.length = (2 * 1 + 1) * (2 * 1 + 1) ∧
          (∀ i j, i < 2 * 1 + 1 → j < 2 * 1 + 1 → ∃ v,
            dC[(r - 1 + i) * 3 + (c - 1 + j)]? = some v ∧
            W_col[i * (2 * 1 + 1) + j]? = some v) ∧
          (∀ x, standard_deviation realOps x W_row ((2 * 1 + 1) * (2 * 1 + 1))
            = some (sd_row, W_row)) ∧
          (∀ x, standard_deviation realOps x W_col ((2 * 1 + 1) * (2 * 1 + 1))
            = some (sd_col, W_col)) ∧
          q[r * 3 + c]? = some (realOps.add sd_row sd_col) :=
  ⟨rfl, rfl, by decide,
    calculate_phase_quality_interior realOps (fun _ _ => 7) (List.replicate 9 0)
      [0, 1, 2, 3, 4, 5, 6, 7, 8] 3 3 1 rfl rfl (by decide)⟩

/-- C2 at a `3 × 3` image with radius `1`. -/
theorem calculate_phase_quality_border_witness :
    ([0, 1, 2, 3, 4, 5, 6, 7, 8] : List ℝ).length = 3 * 3 ∧
    (List.replicate 9 (0 : ℝ)).length = 3 * 3 ∧
    ∃ q, calculate_phase_quality realOps (fun _ _ => 7) (List.replicate 9 0)
        [0, 1, 2, 3, 4, 5, 6, 7, 8] 3 3 1 = some (q, [0, 1, 2, 3, 4, 5, 6, 7, 8]) ∧
      q.length = 3 * 3 ∧
      ∀ r c, r < 3 → c < 3 → (r < 1 ∨ 3 - 1 ≤ r ∨ c < 1 ∨ 3 - 1 ≤ c) →
        q[r * 3 + c]? = (List.replicate 9 (0 : ℝ))[r * 3 + c]? ∧
        (List.replicate 9 (0 : ℝ) = calloc realOps (3 * 3) →
          q[r * 3 + c]? = some realOps.zero) :=
  ⟨rfl, rfl,
    calculate_phase_quality_border realOps (fun _ _ => 7) (List.replicate 9 0)
      [0, 1, 2, 3, 4, 5, 6, 7, 8] 3 3 1 rfl rfl⟩

/-- C3 at the `8 × 8` image of constant phase `0.5` with radius `1`: the
quality is `0` at rows and columns `1..6`. -/
theorem calculate_phase_quality_constant_witness :
    (List.replicate (8 * 8) (0 : ℝ)).length = 8 * 8 ∧ 2 * 1 < min 8 8 ∧
    ∃ q, calculate_phase_quality realOps (fun _ _ => 7) (List.replicate (8 * 8) 0)
        (List.replicate (8 * 8) 0.5) 8 8 1 = some (q, List.replicate (8 * 8) 0.5) ∧
      ∀ r c, 1 ≤ r → r < 8 - 1 → 1 ≤ c → c < 8 - 1 → q[r * 8 + c]? = some 0 :=
  ⟨rfl, by decide,
    calculate_phase_quality_constant (fun _ _ => 7) (List.replicate (8 * 8) 0) 0.5 8 8 1 rfl
      (by decide)⟩

/-- C4 at a `2 × 2` input. -/
theorem wrapped_diff_dim1_spec_witness :
    ([3, -3, 1, 2] : List ℝ).length = 2 * 2 ∧ ([9, 9, 9, 9] : List ℝ).length = 2 * 2 ∧
    ∃ out, wrapped_diff realOps [9, 9, 9, 9] [3, -3, 1, 2] 2 2 1
        = some (out, [3, -3, 1, 2]) ∧ out.length = 2 * 2 ∧
      (∀ r c, r + 1 < 2 → c < 2 → ∃ x1 x0,
        ([3, -3, 1, 2] : List ℝ)[(r + 1) * 2 + c]? = some x1 ∧
        ([3, -3, 1, 2] : List ℝ)[r * 2 + c]? = some x0 ∧
        out[r * 2 + c]? = some (realOps.atan2 (realOps.sin (realOps.sub x1 x0))
          (realOps.cos (realOps.sub x1 x0)))) ∧
      (∀ c, c < 2 → out[(2 - 1) * 2 + c]? = ([9, 9, 9, 9] : List ℝ)[(2 - 1) * 2 + c]?) :=
  ⟨rfl, rfl, wrapped_diff_dim1_spec realOps [9, 9, 9, 9] [3, -3, 1, 2] 2 2 rfl rfl⟩

/-- C5 at a `2 × 2` input. -/
theorem wrapped_diff_dim2_spec_witness :
    ([3, -3, 1, 2] : List ℝ).length = 2 * 2 ∧ ([9, 9, 9, 9] : List ℝ).length = 2 * 2 ∧
    ∃ out, wrapped_diff realOps [9, 9, 9, 9] [3, -3, 1, 2] 2 2 2
        = some (out, [3, -3, 1, 2]) ∧ out.length = 2 * 2 ∧
      (∀ r c, r < 2 → c + 1 < 2 → ∃ x1 x0,
        ([3, -3, 1, 2] : List ℝ)[r * 2 + c + 1]? = some x1 ∧
        ([3, -3, 1, 2] : List ℝ)[r * 2 + c]? = some x0 ∧
        out[r * 2 + c]? = some (realOps.atan2 (realOps.sin (realOps.sub x1 x0))
          (realOps.cos (realOps.sub x1 x0)))) ∧
      (∀ r, r < 2 → out[r * 2 + (2 - 1)]? = ([9, 9, 9, 9] : List ℝ)[r * 2 + (2 - 1)]?) :=
  ⟨rfl, rfl, wrapped_diff_dim2_spec realOps [9, 9, 9, 9] [3, -3, 1, 2] 2 2 rfl rfl⟩

/-- C10 at a `3 × 3` source, origin `(1, 1)` and a `2 × 2` window. -/
theorem extract_subregion_spec_witness :
    ([0, 1, 2, 3, 4, 5, 6, 7, 8] : List Nat).length = 3 * 3 ∧
    ([9, 9, 9, 9] : List Nat).length = 2 * 2 ∧ 1 + 2 ≤ 3 ∧ 1 + 2 ≤ 3 ∧
    ∃ dest, extract_subregion [9, 9, 9, 9] [0, 1, 2, 3, 4, 5, 6, 7, 8] 1 1 3 3 2 2
        = some (dest, [0, 1, 2, 3, 4, 5, 6, 7, 8]) ∧ dest.length = 2 * 2 ∧
      ∀ i j, i < 2 → j < 2 → ∃ v,
        ([0, 1, 2, 3, 4, 5, 6, 7, 8] : List Nat)[(1 + i) * 3 + (1 + j)]? = some v ∧
        dest[i * 2 + j]? = some v :=
  ⟨rfl, rfl, by decide, by decide,
    extract_subregion_spec [9, 9, 9, 9] [0, 1, 2, 3, 4, 5, 6, 7, 8] 1 1 3 3 2 rfl rfl
      (by decide) (by decide)⟩

/-! ## Repeated calls -/

/-- Two runs of `calculate_phase_quality` whose images have the same two
difference fields and whose quality arrays agree outside the interior return
the same quality array. -/
theorem calculate_phase_quality_ext {α : Type} (ops : FloatOps α) (u1 u2 : Nat → Nat → α)
    (Q1 Q2 IMG1 IMG2 : List α) (R C radius : Nat)
    (h1 : R * C ≤ IMG1.length) (h2 : R * C ≤ IMG2.length)
    (hq1 : R * C ≤ Q1.length) (hq2 : Q2.length = Q1.length)
    (hR : ∀ d1 d2, wrapped_diff ops (calloc ops (R * C)) IMG1 R C 1 = some (d1, IMG1) →
      wrapped_diff ops (calloc ops (R * C)) IMG2 R C 1 = some (d2, IMG2) → d1 = d2)
    (hC : ∀ d1 d2, wrapped_diff ops (calloc ops (R * C)) IMG1 R C 2 = some (d1, IMG1) →
      wrapped_diff ops (calloc ops (R * C)) IMG2 R C 2 = some (d2, IMG2) → d1 = d2)
    (hQ : ∀ i, ¬ (∃ r, radius ≤ r ∧ r < R - radius ∧
          ∃ c, radius ≤ c ∧ c < C - radius ∧ i = r * C + c) → Q1[i]? = Q2[i]?) :
    ∃ q, calculate_phase_quality ops u1 Q1 IMG1 R C radius = some (q, IMG1) ∧
      calculate_phase_quality ops u2 Q2 IMG2 R C radius = some (q, IMG2) ∧
      q.length = Q1.length ∧
      (∀ i, ¬ (∃ r, radius ≤ r ∧ r < R - radius ∧
          ∃ c, radius ≤ c ∧ c < C - radius ∧ i = r * C + c) → q[i]? = Q1[i]?) := by
  obtain ⟨dR1, dC1, q1, hR1, _, hC1, _, hrun1, hlen1, hW1, hnW1⟩ :=
    calculate_phase_quality_fills ops u1 Q1 IMG1 R C radius h1 hq1
  obtain ⟨dR2, dC2, q2, hR2, _, hC2, _, hrun2, hlen2, hW2, hnW2⟩ :=
    calculate_phase_quality_fills ops u2 Q2 IMG2 R C radius h2 (by omega)
  have eR := hR dR1 dR2 hR1 hR2
  have eC := hC dC1 dC2 hC1 hC2
  subst eR eC
  have e : q2 = q1 := by
    apply List.ext_getElem?
    intro i
    by_cases hi : ∃ r, radius ≤ r ∧ r < R - radius ∧
        ∃ c, radius ≤ c ∧ c < C - radius ∧ i = r * C + c
    · obtain ⟨r, a1, a2, c, a3, a4, rfl⟩ := hi
      rw [hW1 r c a1 a2 a3 a4, hW2 r c a1 a2 a3 a4]
    · rw [hnW1 i hi, hnW2 i hi, hQ i hi]
  subst e
  exact ⟨q2, hrun1, hrun2, hlen1, hnW1⟩

/-- C11.  On an `R × C` image and an `R × C` quality array, a second call of
`calculate_phase_quality` on the array the first call returned gives that same
array again, and the loop of `main`, run sequentially for any `nloops ≥ 1`,
ends with the array a single call returns.  The indeterminate contents of the
`malloc`ed blocks of each call are arbitrary. -/
theorem calculate_phase_quality_idempotent {α : Type} (ops : FloatOps α)
    (Q IMG : List α) (R C radius : Nat)
    (himg : IMG.length = R * C) (hq : Q.length = R * C) :
    ∃ q, (∀ u, calculate_phase_quality ops u Q IMG R C radius = some (q, IMG)) ∧
      (∀ u, calculate_phase_quality ops u q IMG R C radius = some (q, IMG)) ∧
      (∀ uninit nloops, 1 ≤ nloops →
        main_loop ops uninit Q IMG R C radius nloops = some (q, IMG)) := by
  have hsame : ∀ DIM d1 d2,
      wrapped_diff ops (calloc ops (R * C)) IMG R C DIM = some (d1, IMG) →
      wrapped_diff ops (calloc ops (R * C)) IMG R C DIM = some (d2, IMG) → d1 = d2 := by
    intro DIM d1 d2 e1 e2
    rw [e1] at e2
    exact (Prod.mk.inj (Option.some.inj e2)).1
  obtain ⟨q, hq0, _, hlen, hnW⟩ := calculate_phase_quality_ext ops (fun _ _ => ops.zero)
    (fun _ _ => ops.zero) Q Q IMG IMG R C radius (by omega) (by omega) (by omega) rfl
    (hsame 1) (hsame 2) (fun _ _ => rfl)
  have hfirst : ∀ u, calculate_phase_quality ops u Q IMG R C radius = some (q, IMG) := by
    intro u
    obtain ⟨q', a, b, _⟩ := calculate_phase_quality_ext ops (fun _ _ => ops.zero) u
      Q Q IMG IMG R C radius (by omega) (by omega) (by omega) rfl
      (hsame 1) (hsame 2) (fun _ _ => rfl)
    rw [hq0] at a
    rw [b, ← a]
  have hsecond : ∀ u, calculate_phase_quality ops u q IMG R C radius = some (q, IMG) := by
    intro u
    obtain ⟨q', a, b, _⟩ := calculate_phase_quality_ext ops (fun _ _ => ops.zero) u
      Q q IMG IMG R C radius (by omega) (by omega) (by omega) hlen
      (hsame 1) (hsame 2) (fun i hi => (hnW i hi).symm)
    rw [hq0] at a
    rw [b, ← a]
  refine ⟨q, hfirst, hsecond, ?_⟩
  intro uninit nloops hn
  obtain ⟨m, hm, hInv⟩ := forLoop_inv
    (fun k (m : List α × List α) =>
      calculate_phase_quality ops (uninit k) m.1 m.2 R C radius)
    (fun k m => (k = 0 ∧ m = (Q, IMG)) ∨ (1 ≤ k ∧ m = (q, IMG)))
    0 nloops (Q, IMG) (Nat.zero_le _) (Or.inl ⟨rfl, rfl⟩)
    (by
      intro k m _ _ hInv
      rcases hInv with ⟨_, rfl⟩ | ⟨_, rfl⟩
      · exact ⟨(q, IMG), hfirst _, Or.inr ⟨by omega, rfl⟩⟩
      · exact ⟨(q, IMG), hsecond _, Or.inr ⟨by omega, rfl⟩⟩)
  rcases hInv with ⟨h0, _⟩ | ⟨_, rfl⟩
  · omega
  · exact hm

/-! ## No failure paths -/

theorem calculate_phase_quality_no_interior {α : Type} (ops : FloatOps α)
    (uninit : Nat → Nat → α) (Q IMG : List α) (R C radius : Nat)
    (himg : IMG.length = R * C) (hq : Q.length = R * C) (hrad : min R C ≤ 2 * radius) :
    calculate_phase_quality ops uninit Q IMG R C radius = some (Q, IMG) := by
  obtain ⟨_, _, q, _, _, _, _, hrun, hlen, _, hnW⟩ :=
    calculate_phase_quality_fills ops uninit Q IMG R C radius (by omega) (by omega)
  have e : q = Q := by
    apply List.ext_getElem?
    intro i
    apply hnW
    rintro ⟨r, a1, a2, c, a3, a4, _⟩
    rcases Nat.le_total R C with h | h
    · rw [Nat.min_eq_left h] at hrad; omega
    · rw [Nat.min_eq_right h] at hrad; omega
  rw [hrun, e]

/-- C12, as the code has it.  `calculate_phase_quality` has no configuration
check: on an `R × C` image and an `R × C` quality array it returns for every
radius, and when `2 * radius ≥ min R C` it returns the quality array as it was
passed. -/
theorem calculate_phase_quality_never_fails {α : Type} (ops : FloatOps α)
    (uninit : Nat → Nat → α) (Q IMG : List α) (R C radius : Nat)
    (himg : IMG.length = R * C) (hq : Q.length = R * C) :
    ∃ q, calculate_phase_quality ops uninit Q IMG R C radius = some (q, IMG) ∧
      q.length = R * C ∧ (min R C ≤ 2 * radius → q = Q) := by
  obtain ⟨_, _, q, _, _, _, _, hrun, hlen, _, _⟩ :=
    calculate_phase_quality_fills ops uninit Q IMG R C radius (by omega) (by omega)
  refine ⟨q, hrun, by omega, ?_⟩
  intro hrad
  have h := calculate_phase_quality_no_interior ops uninit Q IMG R C radius himg hq hrad
  rw [hrun] at h
  exact (Prod.mk.inj (Option.some.inj h)).1

/-- C12 fails as stated: with `radius = 0 < 1` on a `1 × 1` image, and with
`radius = 1`, `2 * radius ≥ min R C`, on a `2 × 2` image,
`calculate_phase_quality` returns a quality array instead of failing; in the
second case it is the array that was passed. -/
theorem calculate_phase_quality_no_config_error :
    (∃ q, calculate_phase_quality realOps (fun _ _ => 0) [9] [5] 1 1 0 = some (q, [5])) ∧
    calculate_phase_quality realOps (fun _ _ => 0) [9, 9, 9, 9] [1, 2, 3, 4] 2 2 1
      = some ([9, 9, 9, 9], [1, 2, 3, 4]) := by
  constructor
  · obtain ⟨_, _, q, _, _, _, _, hrun, _⟩ :=
      calculate_phase_quality_fills realOps (fun _ _ => 0) [9] [5] 1 1 0 (by simp) (by simp)
    exact ⟨q, hrun⟩
  · exact calculate_phase_quality_no_interior realOps (fun _ _ => 0) [9, 9, 9, 9] [1, 2, 3, 4]
      2 2 1 rfl rfl (by decide)

/-- C13, as the code has it.  `standard_deviation` has no length check: for
every `LENGTH` within the buffer, `0` included, it returns a value and the
buffer as passed; for `LENGTH = 0` the value is `sqrt (0 / 0)`. -/
theorem standard_deviation_never_fails {α : Type} (ops : FloatOps α) (RESULT : α)
    (INPUT : List α) (LENGTH : Nat) (hlen : LENGTH ≤ INPUT.length) :
    ∃ v, standard_deviation ops RESULT INPUT LENGTH = some (v, INPUT) ∧
      (LENGTH = 0 → v = ops.sqrt (ops.div ops.zero (ops.ofNat 0))) := by
  refine ⟨_, standard_deviation_eq ops RESULT INPUT LENGTH hlen, ?_⟩
  intro h0
  subst h0
  simp [stdOf]

/-- C13 fails as stated: on the empty buffer with `LENGTH = 0`,
`standard_deviation` returns the value `sqrt (0 / 0)` instead of failing. -/
theorem standard_deviation_empty_returns :
    standard_deviation realOps 7 [] 0
      = some (realOps.sqrt (realOps.div realOps.zero (realOps.ofNat 0)), []) := by
  rw [standard_deviation_eq realOps 7 [] 0 (Nat.le_refl _)]
  simp [stdOf]

theorem wrap_real_of_mem (x : ℝ) (h1 : -Real.pi < x) (h2 : x ≤ Real.pi) :
    wrap realOps x = x := by
  have e : (⟨Real.cos x, Real.sin x⟩ : ℂ) = Complex.cos x + Complex.sin x * Complex.I := by
    apply Complex.ext <;> simp [← Complex.ofReal_cos, ← Complex.ofReal_sin]
  show Complex.arg ⟨Real.cos x, Real.sin x⟩ = x
  rw [e]
  exact Complex.arg_cos_add_sin_mul_I ⟨h1, h2⟩

/-- C20.  Over the reals `atan2 (sin x) (cos x) = x` for every `x` with
`-π < x ≤ π`; so on an `R × C` input, wherever the difference of the two
adjacent pixels lies in `(-π, π]`, `wrapped_diff` writes that difference itself,
in the row direction (`DIM = 1`) and in the column direction (`DIM = 2`). -/
theorem wrap_principal (x : ℝ) (hx1 : -Real.pi < x) (hx2 : x ≤ Real.pi)
    (OUTPUT INPUT : List ℝ) (R C : Nat)
    (hin : INPUT.length = R * C) (hout : OUTPUT.length = R * C) :
    realOps.atan2 (realOps.sin x) (realOps.cos x) = x ∧
    (∃ out, wrapped_diff realOps OUTPUT INPUT R C 1 = some (out, INPUT) ∧
      ∀ r c x1 x0, r + 1 < R → c < C →
        INPUT[(r + 1) * C + c]? = some x1 → INPUT[r * C + c]? = some x0 →
        -Real.pi < x1 - x0 → x1 - x0 ≤ Real.pi → out[r * C + c]? = some (x1 - x0)) ∧
    (∃ out, wrapped_diff realOps OUTPUT INPUT R C 2 = some (out, INPUT) ∧
      ∀ r c x1 x0, r < R → c + 1 < C →
        INPUT[r * C + c + 1]? = some x1 → INPUT[r * C + c]? = some x0 →
        -Real.pi < x1 - x0 → x1 - x0 ≤ Real.pi → out[r * C + c]? = some (x1 - x0)) := by
  refine ⟨wrap_real_of_mem x hx1 hx2, ?_, ?_⟩
  · obtain ⟨⟨out, inp⟩, hrun, ⟨hinp, _⟩, _, hW, _⟩ :=
      wrapped_diff_rows_fills realOps INPUT R C (R * C) (by omega) (Nat.le_refl _)
        (OUTPUT, INPUT) ⟨rfl, hout⟩
    simp only at hrun hinp hW
    subst hinp
    refine ⟨out, hrun, ?_⟩
    intro r c x1 x0 hr hc h1 h0 hd1 hd2
    have e : r * C + c + C = (r + 1) * C + c := by ring
    rw [hW _ ⟨c, Nat.zero_le _, hc, r, Nat.zero_le _, by omega, rfl⟩]
    simp only [diffAt, e, h1, h0, Option.some_bind]
    exact congrArg some (wrap_real_of_mem (x1 - x0) hd1 hd2)
  · obtain ⟨⟨out, inp⟩, hrun, ⟨hinp, _⟩, _, hW, _⟩ :=
      wrapped_diff_cols_fills realOps INPUT R C (R * C) (by omega) (Nat.le_refl _)
        (OUTPUT, INPUT) ⟨rfl, hout⟩
    simp only at hrun hinp hW
    subst hinp
    refine ⟨out, hrun, ?_⟩
    intro r c x1 x0 hr hc h1 h0 hd1 hd2
    rw [hW _ ⟨r, Nat.zero_le _, hr, c, Nat.zero_le _, by omega, rfl⟩]
    simp only [diffAt, h1, h0, Option.some_bind]
    exact congrArg some (wrap_real_of_mem (x1 - x0) hd1 hd2)

/-! ## Zero deviation -/

theorem wrap_real_periodic (x : ℝ) (n : ℤ) :
    wrap realOps (x + 2 * Real.pi * n) = wrap realOps x := by
  have e : x + 2 * Real.pi * n = x + n * (2 * Real.pi) := by ring
  simp only [wrap, realOps, e, Real.sin_add_int_mul_two_pi, Real.cos_add_int_mul_two_pi]

theorem jump_image_getElem? (i : Nat) (hi : i < 36) :
    jump_image[i]? = some (if i % 6 < 3 then 3 else -3) := by
  simp [jump_image, List.getElem?_map, List.getElem?_range hi]

theorem wrap_real_neg_six : wrap realOps (-6) = 2 * Real.pi - 6 := by
  have h3 := Real.pi_gt_three
  have h4 := Real.pi_le_four
  have e : (2 * Real.pi - 6 : ℝ) = -6 + 2 * Real.pi * ((1 : ℤ) : ℝ) := by push_cast; ring
  rw [← wrap_real_periodic (-6) 1, ← e]
  exact wrap_real_of_mem _ (by linarith) (by linarith)

theorem jump_image_row_diff (i : Nat) (hi : i + 6 < 36) :
    diffAt realOps jump_image 6 i = some 0 := by
  have e : (i + 6) % 6 = i % 6 := by omega
  simp only [diffAt, jump_image_getElem? (i + 6) hi, jump_image_getElem? i (by omega), e,
    Option.some_bind]
  have z : ∀ x : ℝ, realOps.sub x x = 0 := fun x => sub_self x
  rw [z, wrap_real_zero]

theorem jump_image_col_diff (i : Nat) (hi : i + 1 < 36) (hc : i % 6 < 5) :
    diffAt realOps jump_image 1 i = some (if i % 6 = 2 then 2 * Real.pi - 6 else 0) := by
  simp only [diffAt, jump_image_getElem? (i + 1) hi, jump_image_getElem? i (by omega),
    Option.some_bind]
  have z : ∀ x : ℝ, realOps.sub x x = 0 := fun x => sub_self x
  have e6 : realOps.sub (-3) 3 = (-6 : ℝ) := by
    show (-3 : ℝ) - 3 = -6
    norm_num
  by_cases h2 : i % 6 = 2
  · have a1 : ¬ (i + 1) % 6 < 3 := by omega
    have a0 : i % 6 < 3 := by omega
    rw [if_neg a1, if_pos a0, if_pos h2, e6, wrap_real_neg_six]
  · by_cases h3 : i % 6 < 3
    · have a1 : (i + 1) % 6 < 3 := by omega
      rw [if_pos a1, if_pos h3, if_neg h2, z, wrap_real_zero]
    · have a1 : ¬ (i + 1) % 6 < 3 := by omega
      rw [if_neg a1, if_neg h3, if_neg h2, z, wrap_real_zero]

/-- C15.  Over the reals, for the `6 × 6` image whose columns `0..2` hold `3`
and whose columns `3..5` hold `-3`: the two pixels across the jump hold `3` and
`-3` (raw difference `-6`), the column-direction field that `wrapped_diff`
computes holds `2π - 6` at column `2` of every row, and every entry of the
row-direction and of the column-direction field, hence every entry entering a
radius-1 window, has magnitude at most `2π - 6`. -/
theorem jump_image_wrapped_diff :
    ∃ dR dC,
      wrapped_diff realOps (calloc realOps (6 * 6)) jump_image 6 6 1 = some (dR, jump_image) ∧
      wrapped_diff realOps (calloc realOps (6 * 6)) jump_image 6 6 2 = some (dC, jump_image) ∧
      (∀ r, r < 6 → jump_image[r * 6 + 2]? = some (3 : ℝ) ∧
        jump_image[r * 6 + 3]? = some (-3 : ℝ) ∧
        dC[r * 6 + 2]? = some (2 * Real.pi - 6)) ∧
      (∀ i, i < 36 → ∃ v, dR[i]? = some v ∧ |v| ≤ 2 * Real.pi - 6) ∧
      (∀ i, i < 36 → ∃ v, dC[i]? = some v ∧ |v| ≤ 2 * Real.pi - 6) := by
  have h3 := Real.pi_gt_three
  have hlen : 6 * 6 ≤ jump_image.length := by simp [jump_image]
  have hz : ∀ i, i < 36 → (calloc realOps (6 * 6))[i]? = some (0 : ℝ) := by
    intro i hi
    have hi' : i < 6 * 6 := by omega
    simp only [calloc, List.getElem?_replicate, hi', if_true]
    rfl
  have hb0 : |(0 : ℝ)| ≤ 2 * Real.pi - 6 := by rw [abs_zero]; linarith
  have hb1 : |2 * Real.pi - 6| ≤ 2 * Real.pi - 6 := by
    rw [abs_of_nonneg (by linarith)]
  obtain ⟨⟨dR, i1⟩, hR, ⟨hi1, _⟩, _, hWR, hnWR⟩ :=
    wrapped_diff_rows_fills realOps jump_image 6 6 (6 * 6) hlen (Nat.le_refl _)
      (calloc realOps (6 * 6), jump_image) ⟨rfl, by simp [calloc]⟩
  obtain ⟨⟨dC, i2⟩, hC, ⟨hi2, _⟩, _, hWC, hnWC⟩ :=
    wrapped_diff_cols_fills realOps jump_image 6 6 (6 * 6) hlen (Nat.le_refl _)
      (calloc realOps (6 * 6), jump_image) ⟨rfl, by simp [calloc]⟩
  simp only at hR hi1 hWR hnWR hC hi2 hWC hnWC
  rw [hi1] at hR
  rw [hi2] at hC
  refine ⟨dR, dC, hR, hC, ?_, ?_, ?_⟩
  · intro r hr
    have m2 : (r * 6 + 2) % 6 = 2 := by omega
    have m3 : (r * 6 + 3) % 6 = 3 := by omega
    refine ⟨?_, ?_, ?_⟩
    · rw [jump_image_getElem? _ (by omega), m2]; norm_num
    · rw [jump_image_getElem? _ (by omega), m3]; norm_num
    · rw [hWC _ ⟨r, Nat.zero_le _, hr, 2, Nat.zero_le _, by omega, rfl⟩,
        jump_image_col_diff _ (by omega) (by omega), if_pos m2]
  · intro i hi
    by_cases hW : i + 6 < 36
    · refine ⟨0, ?_, hb0⟩
      rw [hWR i ⟨i % 6, Nat.zero_le _, by omega, i / 6, Nat.zero_le _, by omega, by omega⟩]
      exact jump_image_row_diff i hW
    · refine ⟨0, ?_, hb0⟩
      rw [hnWR i (by rintro ⟨c, _, hc, r, _, hr, rfl⟩; omega)]
      exact hz i hi
  · intro i hi
    by_cases hW : i % 6 < 5
    · rw [hWC i ⟨i / 6, Nat.zero_le _, by omega, i % 6, Nat.zero_le _, by omega, by omega⟩,
        jump_image_col_diff i (by omega) hW]
      by_cases h2 : i % 6 = 2
      · exact ⟨_, by rw [if_pos h2], hb1⟩
      · exact ⟨_, by rw [if_neg h2], hb0⟩
    · refine ⟨0, ?_, hb0⟩
      rw [hnWC i (by rintro ⟨r, _, hr, c, _, hc, rfl⟩; omega)]
      exact hz i hi

/-! ## The padding of the difference fields -/

theorem windowOf_congr {α : Type} (S S' : List α) (o_r o_c C k : Nat)
    (h : ∀ p, p < k * k → sourceAt S' o_r o_c C k p = sourceAt S o_r o_c C k p) :
    windowOf S' o_r o_c C k = windowOf S o_r o_c C k := by
  unfold windowOf
  apply List.filterMap_congr
  intro p hp
  exact h p (List.mem_range.mp hp)

theorem windowOf_whole {α : Type} (S : List α) (k : Nat) (hS : S.length = k * k) :
    windowOf S 0 0 k k = S := by
  obtain ⟨_, hlen, hcell⟩ := extract_subregion_eq_windowOf S S 0 0 k k k (by omega) hS
    (by omega) (by omega)
  apply List.ext_getElem?
  intro p
  by_cases hp : p < k * k
  · obtain ⟨h1, h2, h3⟩ := window_index k p hp
    obtain ⟨v, hv, hw⟩ := hcell (p / k) (p % k) h1 h2
    simp only [Nat.zero_add] at hv
    rw [← h3] at hv hw
    rw [hv, hw]
  · rw [List.getElem?_eq_none (by omega), List.getElem?_eq_none (by omega)]

theorem stdOf_real_one_outlier (m d : ℝ) (N j : Nat) (hN : 1 ≤ N) (hj : j < N) :
    stdOf realOps ((List.replicate N m).set j (m + d)) N
      = |d| * Real.sqrt ((N : ℝ) - 1) / N := by
  rw [stdOf_real]
  have hNpos : (0 : ℝ) < N := by
    have : (1 : ℝ) ≤ N := by exact_mod_cast hN
    linarith
  have hsum : ((List.replicate N m).set j (m + d)).sum = ((N : ℝ) - 1) * m + (m + d) := by
    have h := sum_map_set_replicate (fun x => x) m (m + d) N j hj
    simpa using h
  have hmean : ((List.replicate N m).set j (m + d)).sum / N = m + d / N := by
    rw [hsum]; field_simp; ring
  rw [hmean, sum_map_set_replicate (fun x => (x - (m + d / N)) ^ 2) m (m + d) N j hj]
  have e : (((N : ℝ) - 1) * (m - (m + d / N)) ^ 2 + (m + d - (m + d / N)) ^ 2) / N
      = (|d| / N) ^ 2 * ((N : ℝ) - 1) := by
    rw [div_pow, sq_abs]; field_simp; ring
  have e2 : |d| / N * Real.sqrt ((N : ℝ) - 1) = |d| * Real.sqrt ((N : ℝ) - 1) / N := by ring
  rw [e, Real.sqrt_mul (sq_nonneg _), Real.sqrt_sq (div_nonneg (abs_nonneg d) hNpos.le), e2]

theorem pixel_mem_quality (rows : List ℝ) (hrows : rows.length = 9) :
    ∃ m, quality_pixel realOps 3 3 1 1 1 (pixel_mem rows) = some m ∧
      m.PHASE_QUALITY_ARRAY[1 * 3 + 1]? = some (stdOf realOps rows 9) := by
  obtain ⟨m, hm, _, _, hW, _⟩ := quality_pixel_fills realOps (List.replicate 9 0) rows
    (List.replicate 9 0) 3 3 1 9 1 1 (by omega) (by simp) (by omega) (by omega) (by omega)
    (by omega) (by omega) (pixel_mem rows)
    ⟨rfl, rfl, rfl, by simp [pixel_mem], by simp [pixel_mem], by simp [pixel_mem]⟩
  refine ⟨m, hm, ?_⟩
  have h := hW (1 * 3 + 1) rfl
  simp only at h
  rw [h]
  have e1 : qualityAt realOps rows (List.replicate 9 0) 3 1 (1 * 3 + 1)
      = realOps.add (stdOf realOps (windowOf rows 0 0 3 3) 9)
          (stdOf realOps (windowOf (List.replicate 9 (0 : ℝ)) 0 0 3 3) 9) := rfl
  rw [e1, windowOf_whole rows 3 (by omega), windowOf_whole (List.replicate 9 (0 : ℝ)) 3 (by simp),
    stdOf_real_zeros 9]
  exact congrArg some (add_zero _)

/-- C16 fails as stated.  For the `3 × 3` zero image with radius `1` the
row-direction field is zero, and the pixel loop at the interior pixel `(1, 1)`
stores the quality `0`; with the entry at row `R - 1 = 2`, column `0` of that
field changed to `3`, all other entries as before, it stores
`3 * sqrt 8 / 9 ≠ 0`.  And when the source buffer lacks its last row, the
extraction of that pixel's window runs out of bounds: row `R - 1` is read. -/
theorem last_row_of_row_field_is_read :
    wrapped_diff realOps (calloc realOps (3 * 3)) (List.replicate (3 * 3) 0) 3 3 1
      = some (List.replicate (3 * 3) 0, List.replicate (3 * 3) 0) ∧
    (∀ i, i < 6 → ((List.replicate 9 (0 : ℝ)).set 6 3)[i]? = (List.replicate 9 (0 : ℝ))[i]?) ∧
    (∃ m, quality_pixel realOps 3 3 1 1 1 (pixel_mem (List.replicate 9 0)) = some m ∧
      m.PHASE_QUALITY_ARRAY[1 * 3 + 1]? = some 0) ∧
    (∃ m, quality_pixel realOps 3 3 1 1 1 (pixel_mem ((List.replicate 9 0).set 6 3)) = some m ∧
      m.PHASE_QUALITY_ARRAY[1 * 3 + 1]? = some (3 * Real.sqrt 8 / 9)) ∧
    3 * Real.sqrt 8 / 9 ≠ (0 : ℝ) ∧
    extract_subregion (List.replicate 9 (0 : ℝ)) (List.replicate 6 0) 0 0 3 3 3 3 = none := by
  refine ⟨(wrapped_diff_constant 0 3 3).1, ?_, ?_, ?_, ?_, ?_⟩
  · intro i hi
    rw [List.getElem?_set_ne (by omega)]
  · obtain ⟨m, hm, hq⟩ := pixel_mem_quality (List.replicate 9 0) (by simp)
    exact ⟨m, hm, by rw [hq, stdOf_real_zeros 9]⟩
  · obtain ⟨m, hm, hq⟩ := pixel_mem_quality ((List.replicate 9 0).set 6 3) (by simp)
    refine ⟨m, hm, ?_⟩
    have h := stdOf_real_one_outlier 0 3 9 6 (by omega) (by omega)
    rw [zero_add] at h
    rw [hq, h]
    norm_num
  · have h8 : (0 : ℝ) < Real.sqrt 8 := Real.sqrt_pos.mpr (by norm_num)
    positivity
  · simp [extract_subregion, forLoop, loopFrom, sub2ind, writeAt]

/-- C16, as the code has it.  In the pixel loop of `calculate_phase_quality`,
at an interior pixel `(r, c)` whose window stays above row `R - 1` and left of
column `C - 1` (`r + radius + 1 < R`, `c + radius + 1 < C`), the quality stored
does not depend on row `R - 1` of the row-direction field nor on column `C - 1`
of the column-direction field: two memories whose fields agree outside that row
and that column get the same value. -/
theorem quality_pixel_ignores_padding {α : Type} (ops : FloatOps α) (R C radius r c : Nat)
    (m m' : QualityMem α)
    (hR : m.phase_diff_rows.length = R * C) (hR' : m'.phase_diff_rows.length = R * C)
    (hC : m.phase_diff_cols.length = R * C) (hC' : m'.phase_diff_cols.length = R * C)
    (hsr : m.row_diffs_region.length = (2 * radius + 1) * (2 * radius + 1))
    (hsr' : m'.row_diffs_region.length = (2 * radius + 1) * (2 * radius + 1))
    (hsc : m.col_diffs_region.length = (2 * radius + 1) * (2 * radius + 1))
    (hsc' : m'.col_diffs_region.length = (2 * radius + 1) * (2 * radius + 1))
    (hq : m.PHASE_QUALITY_ARRAY.length = R * C) (hq' : m'.PHASE_QUALITY_ARRAY.length = R * C)
    (hrows : ∀ i j, i + 1 < R → j < C →
      m'.phase_diff_rows[i * C + j]? = m.phase_diff_rows[i * C + j]?)
    (hcols : ∀ i j, i < R → j + 1 < C →
      m'.phase_diff_cols[i * C + j]? = m.phase_diff_cols[i * C + j]?)
    (hr1 : radius ≤ r) (hr2 : r + radius + 1 < R) (hc1 : radius ≤ c) (hc2 : c + radius + 1 < C) :
    ∃ s s' v, quality_pixel ops R C radius r c m = some s ∧
      quality_pixel ops R C radius r c m' = some s' ∧
      s.PHASE_QUALITY_ARRAY[r * C + c]? = some v ∧
      s'.PHASE_QUALITY_ARRAY[r * C + c]? = some v := by
  obtain ⟨s, hs, _, _, hW, _⟩ := quality_pixel_fills ops m.WRAPPED_PHASE_ANGLE
    m.phase_diff_rows m.phase_diff_cols R C radius (R * C) r c (by omega) (by omega)
    (Nat.le_refl _) hr1 (by omega) hc1 (by omega) m ⟨rfl, rfl, rfl, hsr, hsc, hq⟩
  obtain ⟨s', hs', _, _, hW', _⟩ := quality_pixel_fills ops m'.WRAPPED_PHASE_ANGLE
    m'.phase_diff_rows m'.phase_diff_cols R C radius (R * C) r c (by omega) (by omega)
    (Nat.le_refl _) hr1 (by omega) hc1 (by omega) m' ⟨rfl, rfl, rfl, hsr', hsc', hq'⟩
  have hcC : c < C := by omega
  have e1 : windowOf m'.phase_diff_rows (r - radius) (c - radius) C (2 * radius + 1)
      = windowOf m.phase_diff_rows (r - radius) (c - radius) C (2 * radius + 1) := by
    apply windowOf_congr
    intro p hp
    obtain ⟨h1, h2, _⟩ := window_index (2 * radius + 1) p hp
    exact hrows _ _ (by omega) (by omega)
  have e2 : windowOf m'.phase_diff_cols (r - radius) (c - radius) C (2 * radius + 1)
      = windowOf m.phase_diff_cols (r - radius) (c - radius) C (2 * radius + 1) := by
    apply windowOf_congr
    intro p hp
    obtain ⟨h1, h2, _⟩ := window_index (2 * radius + 1) p hp
    exact hcols _ _ (by omega) (by omega)
  refine ⟨s, s', _, hs, hs', hW _ rfl, ?_⟩
  rw [hW' _ rfl]
  simp only [qualityAt, sub2ind_div hcC, sub2ind_mod hcC, e1, e2]

/-! ## The later theorems at concrete inputs -/

/-- C11 at a `3 × 3` image with radius `1`. -/
theorem calculate_phase_quality_idempotent_witness :
    ([0, 1, 2, 3, 4, 5, 6, 7, 8] : List ℝ).length = 3 * 3 ∧
    (List.replicate 9 (0 : ℝ)).length = 3 * 3 ∧
    ∃ q, (∀ u, calculate_phase_quality realOps u (List.replicate 9 0)
          [0, 1, 2, 3, 4, 5, 6, 7, 8] 3 3 1 = some (q, [0, 1, 2, 3, 4, 5, 6, 7, 8])) ∧
      (∀ u, calculate_phase_quality realOps u q [0, 1, 2, 3, 4, 5, 6, 7, 8] 3 3 1
          = some (q, [0, 1, 2, 3, 4, 5, 6, 7, 8])) ∧
      (∀ uninit nloops, 1 ≤ nloops →
        main_loop realOps uninit (List.replicate 9 0) [0, 1, 2, 3, 4, 5, 6, 7, 8] 3 3 1 nloops
          = some (q, [0, 1, 2, 3, 4, 5, 6, 7, 8])) :=
  ⟨rfl, rfl, calculate_phase_quality_idempotent realOps (List.replicate 9 0)
    [0, 1, 2, 3, 4, 5, 6, 7, 8] 3 3 1 rfl rfl⟩

/-- C12, as the code has it, at a `2 × 2` image with radius `1`. -/
theorem calculate_phase_quality_never_fails_witness :
    ([1, 2, 3, 4] : List ℝ).length = 2 * 2 ∧ ([9, 9, 9, 9] : List ℝ).length = 2 * 2 ∧
    ∃ q, calculate_phase_quality realOps (fun _ _ => 7) [9, 9, 9, 9] [1, 2, 3, 4] 2 2 1
        = some (q, [1, 2, 3, 4]) ∧
      q.length = 2 * 2 ∧ (min 2 2 ≤ 2 * 1 → q = [9, 9, 9, 9]) :=
  ⟨rfl, rfl, calculate_phase_quality_never_fails realOps (fun _ _ => 7) [9, 9, 9, 9]
    [1, 2, 3, 4] 2 2 1 rfl rfl⟩

/-- C13, as the code has it, at the empty buffer. -/
theorem standard_deviation_never_fails_witness :
    0 ≤ ([] : List ℝ).length ∧
    ∃ v, standard_deviation realOps 7 [] 0 = some (v, []) ∧
      (0 = 0 → v = realOps.sqrt (realOps.div realOps.zero (realOps.ofNat 0))) :=
  ⟨Nat.le_refl _, standard_deviation_never_fails realOps 7 [] 0 (Nat.le_refl _)⟩

/-- C16, as the code has it, at a `4 × 4` image with radius `1` and the pixel
`(1, 1)`: the entry at row `3`, column `0` of the row-direction field and the
entry at row `0`, column `3` of the column-direction field are changed. -/
theorem quality_pixel_ignores_padding_witness :
    ∃ s s' v,
      quality_pixel realOps 4 4 1 1 1
        (pixel_mem_4 (List.replicate 16 0) (List.replicate 16 0)) = some s ∧
      quality_pixel realOps 4 4 1 1 1
        (pixel_mem_4 ((List.replicate 16 0).set 12 5) ((List.replicate 16 0).set 3 5))
          = some s' ∧
      s.PHASE_QUALITY_ARRAY[1 * 4 + 1]? = some v ∧
      s'.PHASE_QUALITY_ARRAY[1 * 4 + 1]? = some v :=
  quality_pixel_ignores_padding realOps 4 4 1 1 1
    (pixel_mem_4 (List.replicate 16 0) (List.replicate 16 0))
    (pixel_mem_4 ((List.replicate 16 0).set 12 5) ((List.replicate 16 0).set 3 5))
    (by simp [pixel_mem_4]) (by simp [pixel_mem_4]) (by simp [pixel_mem_4])
    (by simp [pixel_mem_4]) (by simp [pixel_mem_4]) (by simp [pixel_mem_4])
    (by simp [pixel_mem_4]) (by simp [pixel_mem_4]) (by simp [pixel_mem_4])
    (by simp [pixel_mem_4])
    (by
      intro i j hi hj
      show ((List.replicate 16 (0 : ℝ)).set 12 5)[i * 4 + j]? = (List.replicate 16 (0 : ℝ))[i * 4 + j]?
      rw [List.getElem?_set_ne (by omega)])
    (by
      intro i j hi hj
      show ((List.replicate 16 (0 : ℝ)).set 3 5)[i * 4 + j]? = (List.replicate 16 (0 : ℝ))[i * 4 + j]?
      rw [List.getElem?_set_ne (by omega)])
    (by decide) (by decide) (by decide) (by decide)

/-- C20 at `x = 1` and a `2 × 2` input. -/
theorem wrap_principal_witness :
    realOps.atan2 (realOps.sin 1) (realOps.cos 1) = 1 ∧
    (∃ out, wrapped_diff realOps [9, 9, 9, 9] [3, -3, 1, 2] 2 2 1
        = some (out, [3, -3, 1, 2]) ∧
      ∀ r c x1 x0, r + 1 < 2 → c < 2 →
        ([3, -3, 1, 2] : List ℝ)[(r + 1) * 2 + c]? = some x1 →
        ([3, -3, 1, 2] : List ℝ)[r * 2 + c]? = some x0 →
        -Real.pi < x1 - x0 → x1 - x0 ≤ Real.pi → out[r * 2 + c]? = some (x1 - x0)) ∧
    (∃ out, wrapped_diff realOps [9, 9, 9, 9] [3, -3, 1, 2] 2 2 2
        = some (out, [3, -3, 1, 2]) ∧
      ∀ r c x1 x0, r < 2 → c + 1 < 2 →
        ([3, -3, 1, 2] : List ℝ)[r * 2 + c + 1]? = some x1 →
        ([3, -3, 1, 2] : List ℝ)[r * 2 + c]? = some x0 →
        -Real.pi < x1 - x0 → x1 - x0 ≤ Real.pi → out[r * 2 + c]? = some (x1 - x0)) :=
  wrap_principal 1 (by linarith [Real.pi_gt_three]) (by linarith [Real.pi_gt_three])
    [9, 9, 9, 9] [3, -3, 1, 2] 2 2 rfl rfl

end PhaseQuality
